import Mathlib

/-!
Verification development for the UBIFS TNC (fs/ubifs/tnc.c) and journal
replay (fs/ubifs/replay.c) code.  The definitions below are shallow
embeddings of the C functions; each definition's doc comment names the C
function (and line range) it is translated from.  Helpers that live in
files not present in this tree (key.h, tnc_misc.c, the rb-tree library)
are modelled from the specification and marked as such.
-/

/-- Modelled from the spec: the five recognized key types of §3
(key.h is not part of this tree).  `trun` keys never appear inside the
index, which `read_znode` enforces. -/
inductive KType where
  | ino
  | data
  | dent
  | xent
  | trun
deriving DecidableEq

/-- Numeric code of a key type, matching the on-flash ordering
UBIFS_INO_KEY < UBIFS_DATA_KEY < UBIFS_DENT_KEY < UBIFS_XENT_KEY. -/
def KType.code : KType → Nat
  | .ino => 0
  | .data => 1
  | .dent => 2
  | .xent => 3
  | .trun => 4

/-- Modelled from the spec §3: a key decomposes into
(inode number, type, discriminator); for data keys the discriminator is
the block number, for hashed keys the name hash. -/
structure Key where
  inum : Nat
  ktype : KType
  disc : Nat
deriving DecidableEq

/-- Three-way comparison on naturals, the sign convention of C `memcmp`. -/
def natCmp (a b : Nat) : Int :=
  if a < b then -1 else if a = b then 0 else 1

/-- Modelled from the spec §4.1: total order `cmp(a,b)`, lexicographic on
the decomposed tuple (inode number, type, discriminator); this is
`keys_cmp` of key.h, which is not part of this tree. -/
def keys_cmp (a b : Key) : Int :=
  if a.inum ≠ b.inum then natCmp a.inum b.inum
  else if a.ktype.code ≠ b.ktype.code then natCmp a.ktype.code b.ktype.code
  else natCmp a.disc b.disc

/-- Modelled from the spec §3: `is_hashed(key)` holds exactly for
dir-entry and xattr-entry keys. -/
def is_hash_key (k : Key) : Bool :=
  k.ktype == .dent || k.ktype == .xent

/-- Modelled from the spec: `data_key_init` of key.h builds the data key
of a given inode and block number. -/
def data_key_init (ino blk : Nat) : Key :=
  ⟨ino, .data, blk⟩

/-- Block size constant UBIFS_BLOCK_SIZE (4096 bytes). -/
def UBIFS_BLOCK_SIZE : Nat := 4096

/-- Translated from `key_in_range`, tnc.c lines 2490-2498. -/
def key_in_range (key from_key to_key : Key) : Bool :=
  if keys_cmp key from_key < 0 then false
  else if keys_cmp key to_key > 0 then false
  else true

/-- Translated from `trun_remove_range`, replay.c lines 147-167: the pair
(min_key, max_key) of data keys handed to `ubifs_tnc_remove_range` for a
truncation replay entry with sizes (old_size, new_size) on inode `ino`. -/
def trun_remove_range_keys (ino old_size new_size : Nat) : Key × Key :=
  let min_blk0 := new_size / UBIFS_BLOCK_SIZE
  let min_blk := if new_size &&& (UBIFS_BLOCK_SIZE - 1) ≠ 0 then min_blk0 + 1 else min_blk0
  let max_blk0 := old_size / UBIFS_BLOCK_SIZE
  let max_blk := if old_size &&& (UBIFS_BLOCK_SIZE - 1) = 0 then max_blk0 - 1 else max_blk0
  (data_key_init ino min_blk, data_key_init ino max_blk)

theorem land4095_eq_mod (n : Nat) : n &&& 4095 = n % 4096 := by
  have h := Nat.and_pow_two_sub_one_eq_mod n 12
  norm_num at h
  exact h

theorem keys_cmp_data_range (ino lo hi : Nat) (k : Key) :
    key_in_range k (data_key_init ino lo) (data_key_init ino hi) = true ↔
      k.inum = ino ∧ k.ktype = .data ∧ lo ≤ k.disc ∧ k.disc ≤ hi := by
  obtain ⟨i, t, d⟩ := k
  cases t <;>
    simp only [key_in_range, keys_cmp, data_key_init, natCmp, KType.code] <;>
    split_ifs <;> simp_all <;> omega

/-- C5: for a replayed truncation with 0 ≤ new_size < old_size, the key
range handed to `ubifs_tnc_remove_range` contains exactly the data keys
of the entry's inode whose block numbers lie in
[new_size/BS + (new_size mod BS ≠ 0 ? 1 : 0),
 old_size/BS − (old_size mod BS = 0 ? 1 : 0)]. -/
theorem trun_remove_range_exact_blocks (ino old_size new_size : Nat)
    (_hlt : new_size < old_size) (k : Key) :
    key_in_range k (trun_remove_range_keys ino old_size new_size).1
        (trun_remove_range_keys ino old_size new_size).2 = true ↔
      k.inum = ino ∧ k.ktype = .data ∧
        new_size / UBIFS_BLOCK_SIZE +
            (if new_size % UBIFS_BLOCK_SIZE ≠ 0 then 1 else 0) ≤ k.disc ∧
        k.disc ≤ old_size / UBIFS_BLOCK_SIZE -
            (if old_size % UBIFS_BLOCK_SIZE = 0 then 1 else 0) := by
  have hnew : new_size &&& (UBIFS_BLOCK_SIZE - 1) = new_size % UBIFS_BLOCK_SIZE := by
    simpa [UBIFS_BLOCK_SIZE] using land4095_eq_mod new_size
  have hold : old_size &&& (UBIFS_BLOCK_SIZE - 1) = old_size % UBIFS_BLOCK_SIZE := by
    simpa [UBIFS_BLOCK_SIZE] using land4095_eq_mod old_size
  unfold trun_remove_range_keys
  rw [hnew, hold]
  rw [keys_cmp_data_range]
  split_ifs <;> simp_all

/-- Witness for C5: the spec's S3 scenario, trun(old=40960, new=4096) on
inode 7 with 4096-byte blocks; block 5 is in the removed range 1..9. -/
theorem trun_remove_range_exact_blocks_witness :
    4096 < 40960 ∧
      key_in_range ⟨7, .data, 5⟩ (trun_remove_range_keys 7 40960 4096).1
        (trun_remove_range_keys 7 40960 4096).2 = true :=
  ⟨by decide,
    (trun_remove_range_exact_blocks 7 40960 4096 (by decide) ⟨7, .data, 5⟩).mpr
      (by decide)⟩

/-- Translated from `struct ubifs_zbranch` as used by `tnc_insert` and the
branch-rewriting operations (the in-memory child pointer and the cached
leaf are irrelevant to branch placement and key order and are omitted
here; the arena model below carries them where they matter). -/
structure Zbranch where
  key : Key
  lnum : Nat
  offs : Nat
  len : Nat
deriving DecidableEq

/-- Translated from `tnc_insert`, tnc.c lines 1951-1966: the sequential
data-append test.  The C comparison `key_block(c, key1) == key_block(c, key) - 1`
is on C ints, hence the cast to ℤ (for block 0 the right-hand side is -1
and can never match a block number). -/
def split_appending (fanout level : Nat) (zbranch : List Zbranch) (key : Key)
    (n : Nat) : Bool :=
  if level = 0 ∧ n = fanout ∧ key.ktype = .data then
    match zbranch[n - 1]? with
    | some zb =>
        zb.key.inum == key.inum && zb.key.ktype == KType.data &&
          ((zb.key.disc : Int) == (key.disc : Int) - 1)
    | none => false
  else false

/-- Translated from `tnc_insert`, tnc.c lines 1951-2018: the split of a
full znode (`child_cnt = fanout`).  `keep`/`move` are chosen by the
append test; if the insertion slot `n` falls in the kept part the code
does `move += 1; keep -= 1` and inserts into the old znode, otherwise it
inserts at slot `n - keep` of the new right sibling.  Returns the branch
lists of (old znode, new right sibling). -/
def tnc_insert_split (fanout level : Nat) (zbranch : List Zbranch)
    (zbr : Zbranch) (n : Nat) : List Zbranch × List Zbranch :=
  let appending := split_appending fanout level zbranch zbr.key n
  let keep := if appending then fanout else (fanout + 1) / 2
  if n < keep then
    (List.insertIdx n zbr (zbranch.take (keep - 1)), zbranch.drop (keep - 1))
  else
    (zbranch.take keep, List.insertIdx (n - keep) zbr (zbranch.drop keep))

/-- C1: splitting a full znode keeps all `fanout` branches and sends only
the new branch to the right sibling exactly in the sequential-append case
(level 0, rightmost slot, data key consecutive with the preceding
branch); in every other case the old znode ends up with (fanout+1)/2
branches, the sibling with the remaining fanout+1−(fanout+1)/2, and the
new branch sits in the side its slot falls in. -/
theorem tnc_insert_split_counts (fanout level : Nat) (zbranch : List Zbranch)
    (zbr : Zbranch) (n : Nat) (hlen : zbranch.length = fanout)
    (hn : n ≤ fanout) (hf : 0 < fanout) :
    (split_appending fanout level zbranch zbr.key n = true →
      (tnc_insert_split fanout level zbranch zbr n).1 = zbranch ∧
      (tnc_insert_split fanout level zbranch zbr n).2 = [zbr]) ∧
    (split_appending fanout level zbranch zbr.key n = false →
      (tnc_insert_split fanout level zbranch zbr n).1.length = (fanout + 1) / 2 ∧
      (tnc_insert_split fanout level zbranch zbr n).2.length =
        fanout + 1 - (fanout + 1) / 2 ∧
      (n < (fanout + 1) / 2 →
        zbr ∈ (tnc_insert_split fanout level zbranch zbr n).1) ∧
      ((fanout + 1) / 2 ≤ n →
        zbr ∈ (tnc_insert_split fanout level zbranch zbr n).2)) := by
  constructor
  · intro hap
    have hnF : n = fanout := by
      unfold split_appending at hap
      split at hap
      · omega
      · simp at hap
    simp only [tnc_insert_split, hap, if_true]
    have : ¬ n < fanout := by omega
    rw [if_neg this]
    constructor
    · simpa using List.take_of_length_le (le_of_eq hlen)
    · have hdrop : zbranch.drop fanout = [] := by
        apply List.drop_eq_nil_of_le
        omega
      rw [hdrop, hnF]
      simp [List.insertIdx]
  · intro hap
    simp only [tnc_insert_split, hap, Bool.false_eq_true, if_false]
    have hk1 : 1 ≤ (fanout + 1) / 2 := by omega
    have hkF : (fanout + 1) / 2 ≤ fanout := by omega
    by_cases hnk : n < (fanout + 1) / 2
    · rw [if_pos hnk]
      have htk : (zbranch.take ((fanout + 1) / 2 - 1)).length = (fanout + 1) / 2 - 1 := by
        rw [List.length_take]
        omega
      refine ⟨?_, ?_, ?_, ?_⟩
      · rw [List.length_insertIdx n _ (by omega)]
        omega
      · rw [List.length_drop]
        omega
      · intro _
        rw [List.mem_insertIdx (by omega)]
        left
        rfl
      · intro h
        omega
    · rw [if_neg hnk]
      refine ⟨?_, ?_, ?_, ?_⟩
      · rw [List.length_take]
        omega
      · rw [List.length_insertIdx (n - (fanout + 1) / 2) _
            (by rw [List.length_drop]; omega)]
        rw [List.length_drop]
        omega
      · intro h
        omega
      · intro _
        rw [List.mem_insertIdx (by rw [List.length_drop]; omega)]
        left
        rfl

/-- Witness for C1: fanout 8, a full level-0 znode with data keys of
blocks 0..7 of inode 10, appending block 8 at the rightmost slot keeps
all 8 branches and moves only the new branch. -/
theorem tnc_insert_split_counts_witness :
    (List.range 8 |>.map (fun b => Zbranch.mk ⟨10, .data, b⟩ 5 0 8)).length = 8 ∧
      8 ≤ 8 ∧ 0 < 8 ∧
      (tnc_insert_split 8 0 (List.range 8 |>.map (fun b => Zbranch.mk ⟨10, .data, b⟩ 5 0 8))
          ⟨⟨10, .data, 8⟩, 5, 0, 8⟩ 8).2 = [⟨⟨10, .data, 8⟩, 5, 0, 8⟩] :=
  ⟨by decide, by decide, by decide,
    ((tnc_insert_split_counts 8 0
        (List.range 8 |>.map (fun b => Zbranch.mk ⟨10, .data, b⟩ 5 0 8))
        ⟨⟨10, .data, 8⟩, 5, 0, 8⟩ 8 (by decide) (by decide) (by decide)).1
      (by decide)).2⟩

/-- Translated from the union inside `struct replay_entry`, replay.c
lines 74-84: a replay entry carries one of a directory-entry name, a pair
of truncation sizes, or a bud's (free, dirty) figures; modelled as a
tagged variant. -/
inductive RPayload where
  | sizes (old_size new_size : Int)
  | name (nm : String)
  | budInfo (free dirty : Int)
deriving DecidableEq

/-- Replay flag REPLAY_DELETION, replay.c line 44. -/
def REPLAY_DELETION : Nat := 1

/-- Replay flag REPLAY_REF, replay.c line 45. -/
def REPLAY_REF : Nat := 2

/-- Translated from `struct replay_entry`, replay.c lines 66-85 (the
rb_node link is replaced by the tree structure below). -/
structure Replay_entry where
  lnum : Nat
  offs : Nat
  len : Nat
  sqnum : Nat
  flags : Nat
  key : Key
  payload : RPayload
deriving DecidableEq

/-- The replay tree `c->replay_tree`.  In the kernel it is an rb-tree;
`rb_insert_color` only rebalances (it moves no entry across the search
order), so the tree is modelled as a plain binary search tree on sqnum. -/
inductive Rbtree where
  | nil
  | node (l : Rbtree) (e : Replay_entry) (r : Rbtree)
deriving DecidableEq

/-- Entries of the replay tree in symmetric order. -/
def Rbtree.entries : Rbtree → List Replay_entry
  | .nil => []
  | .node l e r => l.entries ++ e :: r.entries

/-- The binary-search-tree property on sqnum that `insert_node` /
`insert_dent` / `insert_ref_node` maintain. -/
def Rbtree.bst : Rbtree → Bool
  | .nil => true
  | .node l e r =>
      l.entries.all (fun x => x.sqnum < e.sqnum) &&
      r.entries.all (fun x => e.sqnum < x.sqnum) &&
      l.bst && r.bst

/-- Translated from `insert_node`, replay.c lines 304-348: walk the
replay tree comparing sqnum; on an equal sqnum report "duplicate sqnum in
replay" and fail with -EINVAL before linking anything (the highest_inum
and `*used` side updates do not touch the tree and are omitted). -/
def insert_node (t : Rbtree) (lnum offs len : Nat) (key : Key) (sqnum : Nat)
    (deletion : Bool) (old_size new_size : Int) : Except Int Rbtree :=
  match t with
  | .nil =>
      .ok (.node .nil
        ⟨lnum, offs, len, sqnum, if deletion then REPLAY_DELETION else 0, key,
          .sizes old_size new_size⟩ .nil)
  | .node l e r =>
      if sqnum < e.sqnum then
        match insert_node l lnum offs len key sqnum deletion old_size new_size with
        | .ok l' => .ok (.node l' e r)
        | .error err => .error err
      else if sqnum > e.sqnum then
        match insert_node r lnum offs len key sqnum deletion old_size new_size with
        | .ok r' => .ok (.node l e r')
        | .error err => .error err
      else .error (-22)

/-- Translated from `insert_dent`, replay.c lines 370-423: same walk as
`insert_node`, but the entry carries a copy of the directory-entry name. -/
def insert_dent (t : Rbtree) (lnum offs len : Nat) (key : Key) (name : String)
    (sqnum : Nat) (deletion : Bool) : Except Int Rbtree :=
  match t with
  | .nil =>
      .ok (.node .nil
        ⟨lnum, offs, len, sqnum, if deletion then REPLAY_DELETION else 0, key,
          .name name⟩ .nil)
  | .node l e r =>
      if sqnum < e.sqnum then
        match insert_dent l lnum offs len key name sqnum deletion with
        | .ok l' => .ok (.node l' e r)
        | .error err => .error err
      else if sqnum > e.sqnum then
        match insert_dent r lnum offs len key name sqnum deletion with
        | .ok r' => .ok (.node l e r')
        | .error err => .error err
      else .error (-22)

/-- Modelled from the spec: `highest_ino_key(c, key, -1)` of key.h (not in
this tree) builds the largest inode key; only its fixedness matters to
the replay tree, which is ordered by sqnum alone. -/
def highest_ino_key_m1 : Key :=
  ⟨4294967295, .ino, 0⟩

/-- Translated from `insert_ref_node`, replay.c lines 596-636: same
sqnum walk (its `keys_cmp` result `cmp` is computed and unused in the C),
entry flagged REPLAY_REF carrying the bud's (free, dirty). -/
def insert_ref_node (t : Rbtree) (lnum offs : Nat) (sqnum : Nat)
    (free dirty : Int) : Except Int Rbtree :=
  match t with
  | .nil =>
      .ok (.node .nil
        ⟨lnum, offs, 0, sqnum, REPLAY_REF, highest_ino_key_m1,
          .budInfo free dirty⟩ .nil)
  | .node l e r =>
      if sqnum < e.sqnum then
        match insert_ref_node l lnum offs sqnum free dirty with
        | .ok l' => .ok (.node l' e r)
        | .error err => .error err
      else if sqnum > e.sqnum then
        match insert_ref_node r lnum offs sqnum free dirty with
        | .ok r' => .ok (.node l e r')
        | .error err => .error err
      else .error (-22)

theorem insert_node_dup (t : Rbtree) (lnum offs len : Nat) (key : Key)
    (sqnum : Nat) (deletion : Bool) (old_size new_size : Int)
    (hbst : t.bst = true) (e' : Replay_entry) (hmem : e' ∈ t.entries)
    (hsq : e'.sqnum = sqnum) :
    insert_node t lnum offs len key sqnum deletion old_size new_size =
      .error (-22) := by
  induction t with
  | nil => simp [Rbtree.entries] at hmem
  | node l e r ihl ihr =>
    simp only [Rbtree.bst, Bool.and_eq_true, List.all_eq_true,
      decide_eq_true_eq] at hbst
    obtain ⟨⟨⟨hall_l, hall_r⟩, hbl⟩, hbr⟩ := hbst
    simp only [Rbtree.entries, List.mem_append, List.mem_cons] at hmem
    unfold insert_node
    rcases hmem with hl | he | hr
    · have : sqnum < e.sqnum := by
        have := hall_l e' hl
        omega
      rw [if_pos this, ihl hbl hl]
    · subst he
      rw [if_neg (by omega), if_neg (by omega)]
    · have h1 : e.sqnum < sqnum := by
        have := hall_r e' hr
        omega
      rw [if_neg (by omega), if_pos (by omega), ihr hbr hr]

theorem insert_dent_dup (t : Rbtree) (lnum offs len : Nat) (key : Key)
    (name : String) (sqnum : Nat) (deletion : Bool)
    (hbst : t.bst = true) (e' : Replay_entry) (hmem : e' ∈ t.entries)
    (hsq : e'.sqnum = sqnum) :
    insert_dent t lnum offs len key name sqnum deletion = .error (-22) := by
  induction t with
  | nil => simp [Rbtree.entries] at hmem
  | node l e r ihl ihr =>
    simp only [Rbtree.bst, Bool.and_eq_true, List.all_eq_true,
      decide_eq_true_eq] at hbst
    obtain ⟨⟨⟨hall_l, hall_r⟩, hbl⟩, hbr⟩ := hbst
    simp only [Rbtree.entries, List.mem_append, List.mem_cons] at hmem
    unfold insert_dent
    rcases hmem with hl | he | hr
    · have : sqnum < e.sqnum := by
        have := hall_l e' hl
        omega
      rw [if_pos this, ihl hbl hl]
    · subst he
      rw [if_neg (by omega), if_neg (by omega)]
    · have h1 : e.sqnum < sqnum := by
        have := hall_r e' hr
        omega
      rw [if_neg (by omega), if_pos (by omega), ihr hbr hr]

theorem insert_ref_node_dup (t : Rbtree) (lnum offs : Nat) (sqnum : Nat)
    (free dirty : Int) (hbst : t.bst = true) (e' : Replay_entry)
    (hmem : e' ∈ t.entries) (hsq : e'.sqnum = sqnum) :
    insert_ref_node t lnum offs sqnum free dirty = .error (-22) := by
  induction t with
  | nil => simp [Rbtree.entries] at hmem
  | node l e r ihl ihr =>
    simp only [Rbtree.bst, Bool.and_eq_true, List.all_eq_true,
      decide_eq_true_eq] at hbst
    obtain ⟨⟨⟨hall_l, hall_r⟩, hbl⟩, hbr⟩ := hbst
    simp only [Rbtree.entries, List.mem_append, List.mem_cons] at hmem
    unfold insert_ref_node
    rcases hmem with hl | he | hr
    · have : sqnum < e.sqnum := by
        have := hall_l e' hl
        omega
      rw [if_pos this, ihl hbl hl]
    · subst he
      rw [if_neg (by omega), if_neg (by omega)]
    · have h1 : e.sqnum < sqnum := by
        have := hall_r e' hr
        omega
      rw [if_neg (by omega), if_pos (by omega), ihr hbr hr]

/-- C7: inserting a replay entry (plain node, directory/xattr entry, or
bud reference) whose sqnum collides with an entry already in the replay
tree fails with -EINVAL; the failure is reported before anything is
linked, so the tree is unchanged (the Except error carries no tree). -/
theorem replay_tree_dup_sqnum (t : Rbtree) (hbst : t.bst = true)
    (e' : Replay_entry) (hmem : e' ∈ t.entries) (sqnum : Nat)
    (hsq : e'.sqnum = sqnum) (lnum offs len : Nat) (key : Key)
    (deletion : Bool) (old_size new_size : Int) (name : String)
    (free dirty : Int) :
    insert_node t lnum offs len key sqnum deletion old_size new_size =
        .error (-22) ∧
    insert_dent t lnum offs len key name sqnum deletion = .error (-22) ∧
    insert_ref_node t lnum offs sqnum free dirty = .error (-22) :=
  ⟨insert_node_dup t lnum offs len key sqnum deletion old_size new_size
      hbst e' hmem hsq,
   insert_dent_dup t lnum offs len key name sqnum deletion hbst e' hmem hsq,
   insert_ref_node_dup t lnum offs sqnum free dirty hbst e' hmem hsq⟩

/-- Witness for C7: a two-entry replay tree rejects a third entry reusing
sqnum 5 through all three insertion paths. -/
theorem replay_tree_dup_sqnum_witness :
    insert_node
        (.node .nil ⟨1, 0, 8, 5, 0, ⟨3, .ino, 0⟩, .sizes 0 0⟩
          (.node .nil ⟨1, 8, 8, 9, 0, ⟨4, .ino, 0⟩, .sizes 0 0⟩ .nil))
        2 0 16 ⟨6, .ino, 0⟩ 5 false 0 0 = .error (-22) ∧
    insert_dent
        (.node .nil ⟨1, 0, 8, 5, 0, ⟨3, .ino, 0⟩, .sizes 0 0⟩
          (.node .nil ⟨1, 8, 8, 9, 0, ⟨4, .ino, 0⟩, .sizes 0 0⟩ .nil))
        2 0 16 ⟨6, .dent, 77⟩ "a" 5 false = .error (-22) ∧
    insert_ref_node
        (.node .nil ⟨1, 0, 8, 5, 0, ⟨3, .ino, 0⟩, .sizes 0 0⟩
          (.node .nil ⟨1, 8, 8, 9, 0, ⟨4, .ino, 0⟩, .sizes 0 0⟩ .nil))
        2 0 5 0 0 = .error (-22) := by
  have h := replay_tree_dup_sqnum
    (.node .nil ⟨1, 0, 8, 5, 0, ⟨3, .ino, 0⟩, .sizes 0 0⟩
      (.node .nil ⟨1, 8, 8, 9, 0, ⟨4, .ino, 0⟩, .sizes 0 0⟩ .nil))
    (by decide) ⟨1, 0, 8, 5, 0, ⟨3, .ino, 0⟩, .sizes 0 0⟩ (by decide)
    5 rfl 2 0 16 ⟨6, .ino, 0⟩ false 0 0 "a" 0 0
  exact ⟨h.1, by
    have h2 := replay_tree_dup_sqnum
      (.node .nil ⟨1, 0, 8, 5, 0, ⟨3, .ino, 0⟩, .sizes 0 0⟩
        (.node .nil ⟨1, 8, 8, 9, 0, ⟨4, .ino, 0⟩, .sizes 0 0⟩ .nil))
      (by decide) ⟨1, 0, 8, 5, 0, ⟨3, .ino, 0⟩, .sizes 0 0⟩ (by decide)
      5 rfl 2 0 16 ⟨6, .dent, 77⟩ false 0 0 "a" 0 0
    exact h2.2.1, h.2.2⟩

/-- Translated from `struct ubifs_bud` (lnum, start, jhead) as used by
replay.c. -/
structure Ubifs_bud where
  lnum : Nat
  start : Nat
  jhead : Nat
deriving DecidableEq

/-- Translated from `struct bud_entry`, replay.c lines 94-99 (the bud it
points at is inlined). -/
structure Bud_entry where
  bud : Ubifs_bud
  sqnum : Nat
deriving DecidableEq

/-- Modelled from the spec §6: `search_bud(lnum) → bud | none` is an
external collaborator (ubifs_search_bud lives in log.c, not in this
tree); it finds the bud recorded for a LEB. -/
def ubifs_search_bud (buds : List Ubifs_bud) (lnum : Nat) : Option Ubifs_bud :=
  buds.find? (fun b => b.lnum == lnum)

/-- Payload of a scanned log node: a commit-start node (with its commit
number), a reference node (with the bud LEB, offset and journal head it
names), or any other node type. -/
inductive Snode_data where
  | cs (cmt_no : Nat)
  | ref (lnum : Nat) (offs : Nat) (jhead : Nat)
  | other
deriving DecidableEq

/-- Translated from `struct ubifs_scan_node` as consumed by
`replay_log_leb`: position, sequence number and the decoded payload. -/
structure Scan_node where
  data : Snode_data
  offs : Nat
  sqnum : Nat
deriving DecidableEq

/-- Translated from `struct ubifs_scan_leb`: the scanned node list and
the scan end point (`sleb->endpt`). -/
structure Scan_leb where
  nodes : List Scan_node
  endpt : Nat
deriving DecidableEq

/-- The slice of `struct ubifs_info` read and written by the log walk of
replay.c: commit-start bookkeeping, geometry constants, the bud tree and
the list of buds queued for replay.  SQNUM_WATERMARK (ubifs-media.h, not
in this tree) is carried as a field; its exact value is immaterial. -/
structure LogSt where
  cs_sqnum : Nat
  cmt_no : Nat
  max_sqnum : Nat
  jhead_cnt : Nat
  leb_cnt : Nat
  main_first : Nat
  leb_size : Nat
  min_io_size : Nat
  sqnum_watermark : Nat
  lhead_lnum : Nat
  lhead_offs : Nat
  buds : List Ubifs_bud
  replay_buds : List Bud_entry
deriving DecidableEq

/-- Translated from `validate_ref`, replay.c lines 731-758: returns 1 if
a bud for the same LEB, same journal head and start ≤ offs already
exists (the ref is skipped), 0 if the reference is new, and -EINVAL on a
validation failure or a conflicting existing bud.  `offs` may equal
`leb_size` (journal head at the end of the LEB), hence `offs > leb_size`. -/
def validate_ref (c : LogSt) (lnum offs jhead : Nat) : Int :=
  if jhead ≥ c.jhead_cnt ∨ lnum ≥ c.leb_cnt ∨ lnum < c.main_first ∨
      offs > c.leb_size ∨ offs &&& (c.min_io_size - 1) ≠ 0 then
    -22
  else
    match ubifs_search_bud c.buds lnum with
    | some bud => if bud.jhead = jhead ∧ bud.start ≤ offs then 1 else -22
    | none => 0

/-- Translated from `add_replay_bud`, replay.c lines 690-718: register
the bud with the bud tree (`ubifs_add_bud`) and append a bud entry
carrying the ref's sqnum to the replay bud list. -/
def add_replay_bud (c : LogSt) (lnum offs jhead sqnum : Nat) : LogSt :=
  { c with
    buds := c.buds ++ [⟨lnum, offs, jhead⟩],
    replay_buds := c.replay_buds ++ [⟨⟨lnum, offs, jhead⟩, sqnum⟩] }

/-- Translated from the node loop of `replay_log_leb`, replay.c lines
838-886: watermark check, end-of-log sanity check (an in-loop record
older than cs_sqnum is corruption), max_sqnum tracking, then dispatch on
the node type (REF validated and possibly enqueued, CS allowed only at
offset 0, anything else corrupt). -/
def replay_log_node (c : LogSt) (snod : Scan_node) : Except Int LogSt :=
  if snod.sqnum ≥ c.sqnum_watermark then .error (-22)
  else if snod.sqnum < c.cs_sqnum then .error (-22)
  else
    let c := if snod.sqnum > c.max_sqnum then { c with max_sqnum := snod.sqnum } else c
    match snod.data with
    | .ref lnum offs jhead =>
        let v := validate_ref c lnum offs jhead
        if v = 1 then .ok c
        else if v ≠ 0 then .error (-22)
        else .ok (add_replay_bud c lnum offs jhead snod.sqnum)
    | .cs _ => if snod.offs ≠ 0 then .error (-22) else .ok c
    | .other => .error (-22)

/-- Translated from `replay_log_leb`, replay.c lines 771-904: empty scan
means end of log; on the first log LEB the first node must be a
commit-start node with the expected commit number, recording cs_sqnum; a
first node older than cs_sqnum means the end of the log was reached
(result code 1, no error); the first node must sit at offset 0; then
every node is processed by `replay_log_node`, and the log head is
advanced.  Returns the updated state and the C result code (1 = last log
LEB, 0 = keep walking). -/
def replay_log_leb (c : LogSt) (lnum _offs : Nat) (sleb : Scan_leb) :
    Except Int (LogSt × Nat) :=
  match sleb.nodes with
  | [] => .ok (c, 1)
  | snod :: _ =>
    let hcs : Except Int LogSt :=
      if c.cs_sqnum = 0 then
        match snod.data with
        | .cs cmt_no =>
            if cmt_no ≠ c.cmt_no then .error (-22)
            else .ok { c with cs_sqnum := snod.sqnum }
        | _ => .error (-22)
      else .ok c
    match hcs with
    | .error e => .error e
    | .ok c =>
      if snod.sqnum < c.cs_sqnum then .ok (c, 1)
      else if snod.offs ≠ 0 then .error (-22)
      else
        match List.foldlM replay_log_node c sleb.nodes with
        | .error e => .error e
        | .ok c =>
          let c :=
            if sleb.endpt ≠ 0 ∨ c.lhead_offs ≥ c.leb_size then
              { c with lhead_lnum := lnum, lhead_offs := sleb.endpt }
            else c
          .ok (c, if sleb.endpt = 0 then 1 else 0)

/-- Counterexample for C8: with cs_sqnum = 5, a log LEB whose second
record has sqnum 3 < 5 contains an older record, yet `replay_log_leb`
fails with -EINVAL instead of stopping the walk without error, so the
end-of-log treatment does not apply "regardless of where within a log
LEB the older record appears". -/
theorem replay_log_leb_old_record_midleb :
    (∃ snod ∈ (Scan_leb.mk
        [⟨.ref 20 0 1, 0, 6⟩, ⟨.ref 21 0 1, 64, 3⟩] 128).nodes,
      snod.sqnum <
        (LogSt.mk 5 1 0 3 100 10 4096 8 1000000 0 0 [] []).cs_sqnum) ∧
    replay_log_leb (LogSt.mk 5 1 0 3 100 10 4096 8 1000000 0 0 [] []) 100 0
        (Scan_leb.mk [⟨.ref 20 0 1, 0, 6⟩, ⟨.ref 21 0 1, 64, 3⟩] 128) =
      .error (-22) := by
  constructor
  · exact ⟨⟨.ref 21 0 1, 64, 3⟩, by decide, by decide⟩
  · rfl

/-- C8 (amended): a record older than cs_sqnum ends the log walk without
error only when it is the first record of the scanned log LEB (result
code 1, state unchanged); an older record encountered anywhere in the
per-node loop is treated as corruption and fails with -EINVAL. -/
theorem replay_log_leb_end_of_log (c : LogSt) (lnum offs : Nat)
    (sleb : Scan_leb) (snod : Scan_node) (rest : List Scan_node)
    (hnodes : sleb.nodes = snod :: rest) (hold : snod.sqnum < c.cs_sqnum) :
    replay_log_leb c lnum offs sleb = .ok (c, 1) ∧
      (∀ c' : LogSt, ∀ sn : Scan_node, sn.sqnum < c'.cs_sqnum →
        replay_log_node c' sn = .error (-22)) := by
  constructor
  · unfold replay_log_leb
    rw [hnodes]
    have hcs0 : ¬ c.cs_sqnum = 0 := by omega
    simp only [if_neg hcs0]
    rw [if_pos hold]
  · intro c' sn hlt
    unfold replay_log_node
    by_cases hw : sn.sqnum ≥ c'.sqnum_watermark
    · rw [if_pos hw]
    · rw [if_neg hw, if_pos hlt]

/-- Witness for C8 (amended): a log LEB whose first record has sqnum
3 < cs_sqnum 5 ends the log walk with code 1 and no error. -/
theorem replay_log_leb_end_of_log_witness :
    replay_log_leb (LogSt.mk 5 1 0 3 100 10 4096 8 1000000 0 0 [] []) 100 0
        (Scan_leb.mk [⟨.ref 20 0 1, 0, 3⟩] 64) =
      .ok (LogSt.mk 5 1 0 3 100 10 4096 8 1000000 0 0 [] [], 1) :=
  (replay_log_leb_end_of_log (LogSt.mk 5 1 0 3 100 10 4096 8 1000000 0 0 [] [])
    100 0 (Scan_leb.mk [⟨.ref 20 0 1, 0, 3⟩] 64) ⟨.ref 20 0 1, 0, 3⟩ []
    rfl (by decide)).1

/-- C9: for a REF record scanned from a log LEB (sqnum below the
watermark and not older than cs_sqnum): it is rejected as Corrupt
(-EINVAL) unless jhead < jhead_cnt, lnum is inside the main area, offs is
within the LEB and min_io_size-aligned; a ref whose LEB already has a bud
with the same jhead and start ≤ offs is skipped without error and without
touching the bud lists; any other collision is Corrupt; otherwise a new
bud (lnum, offs, jhead, sqnum) is enqueued for replay. -/
theorem replay_log_node_ref (c : LogSt) (lnum offs jhead sq nodeoffs : Nat)
    (hw : sq < c.sqnum_watermark) (hcs : c.cs_sqnum ≤ sq) :
    ((jhead ≥ c.jhead_cnt ∨ lnum ≥ c.leb_cnt ∨ lnum < c.main_first ∨
        offs > c.leb_size ∨ offs &&& (c.min_io_size - 1) ≠ 0) →
      replay_log_node c ⟨.ref lnum offs jhead, nodeoffs, sq⟩ = .error (-22)) ∧
    (∀ bud, ¬ (jhead ≥ c.jhead_cnt ∨ lnum ≥ c.leb_cnt ∨ lnum < c.main_first ∨
        offs > c.leb_size ∨ offs &&& (c.min_io_size - 1) ≠ 0) →
      ubifs_search_bud c.buds lnum = some bud →
      (bud.jhead = jhead ∧ bud.start ≤ offs →
        replay_log_node c ⟨.ref lnum offs jhead, nodeoffs, sq⟩ =
          .ok (if sq > c.max_sqnum then { c with max_sqnum := sq } else c)) ∧
      (¬ (bud.jhead = jhead ∧ bud.start ≤ offs) →
        replay_log_node c ⟨.ref lnum offs jhead, nodeoffs, sq⟩ =
          .error (-22))) ∧
    (¬ (jhead ≥ c.jhead_cnt ∨ lnum ≥ c.leb_cnt ∨ lnum < c.main_first ∨
        offs > c.leb_size ∨ offs &&& (c.min_io_size - 1) ≠ 0) →
      ubifs_search_bud c.buds lnum = none →
      replay_log_node c ⟨.ref lnum offs jhead, nodeoffs, sq⟩ =
        .ok (add_replay_bud
          (if sq > c.max_sqnum then { c with max_sqnum := sq } else c)
          lnum offs jhead sq)) := by
  have hw' : ¬ sq ≥ c.sqnum_watermark := by omega
  have hcs' : ¬ sq < c.cs_sqnum := by omega
  refine ⟨?_, ?_, ?_⟩
  · intro hbad
    unfold replay_log_node validate_ref
    rw [if_neg hw', if_neg hcs']
    by_cases hmax : sq > c.max_sqnum <;>
      simp only [hmax, ite_true, ite_false, if_true, if_false] <;>
      rw [if_pos hbad] <;> norm_num
  · intro bud hok hfound
    constructor
    · intro hskip
      unfold replay_log_node validate_ref
      rw [if_neg hw', if_neg hcs']
      by_cases hmax : sq > c.max_sqnum <;>
        simp only [hmax, ite_true, ite_false, if_true, if_false] <;>
        rw [if_neg hok, hfound] <;> simp [hskip]
    · intro hcoll
      unfold replay_log_node validate_ref
      rw [if_neg hw', if_neg hcs']
      by_cases hmax : sq > c.max_sqnum <;>
        simp only [hmax, ite_true, ite_false, if_true, if_false] <;>
        rw [if_neg hok, hfound] <;> simp [hcoll]
  · intro hok hnone
    unfold replay_log_node validate_ref
    rw [if_neg hw', if_neg hcs']
    by_cases hmax : sq > c.max_sqnum <;>
      simp only [hmax, ite_true, ite_false, if_true, if_false] <;>
      rw [if_neg hok, hnone] <;> norm_num

/-- Witness for C9: a valid new REF record (LEB 20, offset 64, head 1,
sqnum 6) is enqueued as a bud for replay. -/
theorem replay_log_node_ref_witness :
    replay_log_node (LogSt.mk 5 1 0 3 100 10 4096 8 1000000 0 0 [] [])
        ⟨.ref 20 64 1, 0, 6⟩ =
      .ok (add_replay_bud
        (LogSt.mk 5 1 6 3 100 10 4096 8 1000000 0 0 [] []) 20 64 1 6) := by
  have h := (replay_log_node_ref
    (LogSt.mk 5 1 0 3 100 10 4096 8 1000000 0 0 [] [])
    20 64 1 6 0 (by decide) (by decide)).2.2 (by decide) (by decide)
  simpa using h

/-- Translated from `struct ubifs_zbranch` for the arena model of the
znode cache: key, on-flash position, and the loaded child as an arena
index (`NULL` = none).  The cached leaf pointer plays no role in
copy-on-write and is omitted. -/
structure Zbr where
  key : Key
  lnum : Nat
  offs : Nat
  len : Nat
  znode : Option Nat
deriving DecidableEq

/-- Translated from `struct ubifs_znode`: level, branch array
(child_cnt = list length), parent back-reference and index-in-parent,
the DIRTY/COW/OBSOLETE flag bits, and the commit-list link `cnext`
(modelled as "linked or not"). -/
structure Znode where
  level : Nat
  zbranch : List Zbr
  parent : Option Nat
  iip : Nat
  dirty : Bool
  cow : Bool
  obsolete : Bool
  cnext : Bool
deriving DecidableEq

/-- Arena state for the znode cache: `store` maps arena ids to znodes
(ids below `next` are allocated), plus the old-index set, the lprops
dirty-space charges made through `add_idx_dirt` (as a list of
(lnum, dirt) records; `calc_idx_sz` is not modelled), and the
clean/dirty znode counters. -/
structure Tnc where
  store : Nat → Znode
  next : Nat
  old_idx : List (Nat × Nat)
  idx_dirt : List (Nat × Nat)
  dirty_zn_cnt : Int
  clean_zn_cnt : Int

/-- Point update of the arena. -/
def upd_znode (s : Tnc) (i : Nat) (f : Znode → Znode) : Tnc :=
  { s with store := fun j => if j = i then f (s.store j) else s.store j }

/-- Translated from `add_idx_dirt`, tnc.c lines 440-444: charge `dirt`
bytes at `lnum` to the lprops dirty accounting (`ubifs_add_dirt`). -/
def add_idx_dirt (s : Tnc) (lnum dirt : Nat) : Tnc :=
  { s with idx_dirt := (lnum, dirt) :: s.idx_dirt }

/-- Translated from `insert_old_idx`, tnc.c lines 76-111: record
(lnum, offs) in the old-index tree; a duplicate is reported and ignored. -/
def insert_old_idx (s : Tnc) (lnum offs : Nat) : Tnc :=
  if (lnum, offs) ∈ s.old_idx then s
  else { s with old_idx := (lnum, offs) :: s.old_idx }

/-- Translated from the reparenting loop of `copy_znode`, tnc.c lines
411-422: every loaded child of the copied znode gets the clone as its
parent. -/
def reparent_children (nid : Nat) (s : Tnc) (bs : List Zbr) : Tnc :=
  bs.foldl
    (fun acc zbr =>
      match zbr.znode with
      | some cid => upd_znode acc cid (fun z => { z with parent := some nid })
      | none => acc)
    s

/-- Translated from `copy_znode`, tnc.c lines 397-430: allocate a clone
with the original's contents, mark the original OBSOLETE, reparent all
loaded children to the clone when the znode is not a leaf, then clear the
clone's commit link, set DIRTY and clear COW on it and bump the dirty
znode counter.  Returns the new arena id. -/
def copy_znode (s : Tnc) (zid : Nat) : Tnc × Nat :=
  let znode := s.store zid
  let nid := s.next
  let s1 : Tnc :=
    { s with store := fun j => if j = nid then znode else s.store j, next := nid + 1 }
  let s2 := upd_znode s1 zid (fun z => { z with obsolete := true })
  let s3 := if znode.level ≠ 0 then reparent_children nid s2 znode.zbranch else s2
  let s4 := upd_znode s3 nid (fun z => { z with cnext := false, dirty := true, cow := false })
  ({ s4 with dirty_zn_cnt := s4.dirty_zn_cnt + 1 }, nid)

/-- Translated from `dirty_cow_znode`, tnc.c lines 453-495: a znode that
is not being committed is dirtied in place (counters moved and its old
on-flash image charged as dirt only on the clean→dirty transition); a COW
znode is copied, the old image is recorded in the old-index tree and
charged as dirt when the branch has one (len ≠ 0), and the branch is
redirected to the clone with its (lnum, offs, len) zeroed.  Returns the
new state, the updated branch, and the resulting znode id. -/
def dirty_cow_znode (s : Tnc) (zbr : Zbr) : Tnc × Zbr × Option Nat :=
  match zbr.znode with
  | none => (s, zbr, none)
  | some zid =>
    let znode := s.store zid
    if ¬ znode.cow then
      if ¬ znode.dirty then
        let s1 := upd_znode s zid (fun z => { z with dirty := true })
        let s2 : Tnc :=
          { s1 with dirty_zn_cnt := s1.dirty_zn_cnt + 1,
                    clean_zn_cnt := s1.clean_zn_cnt - 1 }
        let s3 := add_idx_dirt s2 zbr.lnum zbr.len
        (s3, zbr, some zid)
      else (s, zbr, some zid)
    else
      let r := copy_znode s zid
      let s2 :=
        if zbr.len ≠ 0 then
          add_idx_dirt (insert_old_idx r.1 zbr.lnum zbr.offs) zbr.lnum zbr.len
        else r.1
      ({ s2 with }, { zbr with znode := some r.2, lnum := 0, offs := 0, len := 0 },
        some r.2)

theorem upd_store_self (s : Tnc) (i : Nat) (f : Znode → Znode) :
    (upd_znode s i f).store i = f (s.store i) := by
  simp [upd_znode]

theorem upd_store_other (s : Tnc) (i : Nat) (f : Znode → Znode) (j : Nat)
    (h : j ≠ i) : (upd_znode s i f).store j = s.store j := by
  simp [upd_znode, h]

theorem reparent_cons (nid : Nat) (s : Tnc) (b : Zbr) (bs : List Zbr) :
    reparent_children nid s (b :: bs) =
      reparent_children nid
        (match b.znode with
         | some cid => upd_znode s cid (fun z => { z with parent := some nid })
         | none => s) bs := rfl

theorem reparent_fields (nid : Nat) (s : Tnc) (bs : List Zbr) :
    (reparent_children nid s bs).next = s.next ∧
    (reparent_children nid s bs).old_idx = s.old_idx ∧
    (reparent_children nid s bs).idx_dirt = s.idx_dirt ∧
    (reparent_children nid s bs).dirty_zn_cnt = s.dirty_zn_cnt := by
  induction bs generalizing s with
  | nil => exact ⟨rfl, rfl, rfl, rfl⟩
  | cons b bs ih =>
    rw [reparent_cons]
    cases hb : b.znode with
    | none => simpa [hb] using ih s
    | some cid =>
      simp only [hb]
      simpa [upd_znode] using ih (upd_znode s cid (fun z => { z with parent := some nid }))

theorem reparent_store_untouched (nid : Nat) (s : Tnc) (bs : List Zbr)
    (j : Nat) (h : ∀ b ∈ bs, b.znode ≠ some j) :
    (reparent_children nid s bs).store j = s.store j := by
  induction bs generalizing s with
  | nil => rfl
  | cons b bs ih =>
    rw [reparent_cons]
    cases hb : b.znode with
    | none =>
      simp only [hb]
      exact ih s (fun x hx => h x (List.mem_cons_of_mem b hx))
    | some cid =>
      simp only [hb]
      rw [ih _ (fun x hx => h x (List.mem_cons_of_mem b hx))]
      apply upd_store_other
      intro hj
      exact h b (List.mem_cons_self b bs) (by rw [hb, hj])

theorem reparent_store_child (nid : Nat) (s : Tnc) (bs : List Zbr)
    (j : Nat) (h : ∃ b ∈ bs, b.znode = some j) :
    (reparent_children nid s bs).store j = { s.store j with parent := some nid } := by
  induction bs generalizing s with
  | nil => simp at h
  | cons b bs ih =>
    rw [reparent_cons]
    by_cases hrest : ∃ x ∈ bs, x.znode = some j
    · cases hb : b.znode with
      | none => simpa [hb] using ih s hrest
      | some cid =>
        simp only [hb]
        rw [ih _ hrest]
        by_cases hcj : j = cid
        · subst hcj
          rw [upd_store_self]
        · rw [upd_store_other _ _ _ _ hcj]
    · have hbj : b.znode = some j := by
        rcases h with ⟨x, hx, hxz⟩
        rcases List.mem_cons.mp hx with rfl | hx'
        · exact hxz
        · exact absurd ⟨x, hx', hxz⟩ hrest
      simp only [hbj]
      have hall : ∀ x ∈ bs, x.znode ≠ some j := by
        intro x hx hxz
        exact hrest ⟨x, hx, hxz⟩
      rw [reparent_store_untouched nid _ bs j hall, upd_store_self]

theorem dirty_cow_znode_cow_eq (s : Tnc) (zbr : Zbr) (zid : Nat)
    (hz : zbr.znode = some zid) (hcow : (s.store zid).cow = true) :
    dirty_cow_znode s zbr =
      (if zbr.len ≠ 0 then
          add_idx_dirt (insert_old_idx (copy_znode s zid).1 zbr.lnum zbr.offs)
            zbr.lnum zbr.len
        else (copy_znode s zid).1,
        { zbr with znode := some (copy_znode s zid).2,
                   lnum := 0, offs := 0, len := 0 },
        some (copy_znode s zid).2) := by
  unfold dirty_cow_znode
  simp only [hz, hcow]
  rfl

theorem dirty_cow_znode_clean_eq (s : Tnc) (zbr : Zbr) (zid : Nat)
    (hz : zbr.znode = some zid) (hcow : (s.store zid).cow = false)
    (hdirty : (s.store zid).dirty = false) :
    dirty_cow_znode s zbr =
      (add_idx_dirt
        { upd_znode s zid (fun z => { z with dirty := true }) with
            dirty_zn_cnt := s.dirty_zn_cnt + 1,
            clean_zn_cnt := s.clean_zn_cnt - 1 }
        zbr.lnum zbr.len, zbr, some zid) := by
  unfold dirty_cow_znode
  simp only [hz, hcow, hdirty]
  rfl

theorem copy_znode_old_idx (s : Tnc) (zid : Nat) :
    (copy_znode s zid).1.old_idx = s.old_idx := by
  unfold copy_znode
  dsimp only [upd_znode]
  split
  · exact (reparent_fields _ _ _).2.1
  · rfl

theorem copy_znode_idx_dirt (s : Tnc) (zid : Nat) :
    (copy_znode s zid).1.idx_dirt = s.idx_dirt := by
  unfold copy_znode
  dsimp only [upd_znode]
  split
  · exact (reparent_fields _ _ _).2.2.1
  · rfl

theorem copy_znode_id (s : Tnc) (zid : Nat) : (copy_znode s zid).2 = s.next := rfl

theorem copy_znode_store_new (s : Tnc) (zid : Nat) (hzid : zid < s.next)
    (hch : ∀ b ∈ (s.store zid).zbranch, ∀ cid, b.znode = some cid →
      cid < s.next ∧ cid ≠ zid) :
    (copy_znode s zid).1.store s.next =
      { s.store zid with cnext := false, dirty := true, cow := false } := by
  unfold copy_znode
  dsimp only
  rw [upd_store_self]
  split
  · rw [reparent_store_untouched _ _ _ _
      (fun b hb hbz => by
        have := (hch b hb s.next hbz).1
        omega)]
    rw [upd_store_other _ _ _ _ (by omega : s.next ≠ zid)]
    simp [upd_znode]
  · rw [upd_store_other _ _ _ _ (by omega : s.next ≠ zid)]
    simp [upd_znode]

theorem copy_znode_store_orig (s : Tnc) (zid : Nat) (hzid : zid < s.next)
    (hch : ∀ b ∈ (s.store zid).zbranch, ∀ cid, b.znode = some cid →
      cid < s.next ∧ cid ≠ zid) :
    (copy_znode s zid).1.store zid = { s.store zid with obsolete := true } := by
  unfold copy_znode
  dsimp only
  rw [upd_store_other _ _ _ _ (by omega : zid ≠ s.next)]
  split
  · rw [reparent_store_untouched _ _ _ _
      (fun b hb hbz => (hch b hb zid hbz).2 rfl)]
    rw [upd_store_self]
    simp [upd_znode, (by omega : zid ≠ s.next)]
  · rw [upd_store_self]
    simp [upd_znode, (by omega : zid ≠ s.next)]

theorem copy_znode_store_child (s : Tnc) (zid : Nat) (_hzid : zid < s.next)
    (hch : ∀ b ∈ (s.store zid).zbranch, ∀ cid, b.znode = some cid →
      cid < s.next ∧ cid ≠ zid)
    (hlevel : (s.store zid).level ≠ 0) (b : Zbr)
    (hb : b ∈ (s.store zid).zbranch) (cid : Nat) (hcid : b.znode = some cid) :
    (copy_znode s zid).1.store cid =
      { s.store cid with parent := some s.next } := by
  obtain ⟨hlt, hne⟩ := hch b hb cid hcid
  unfold copy_znode
  dsimp only
  rw [upd_store_other _ _ _ _ (by omega : cid ≠ s.next)]
  rw [if_pos hlevel]
  rw [reparent_store_child _ _ _ _ ⟨b, hb, hcid⟩]
  rw [upd_store_other _ _ _ _ hne]
  dsimp only [upd_znode]
  rw [if_neg (by omega : ¬ cid = s.next)]

theorem insert_old_idx_store (s : Tnc) (lnum offs : Nat) :
    (insert_old_idx s lnum offs).store = s.store := by
  unfold insert_old_idx
  split <;> rfl

theorem mem_insert_old_idx (s : Tnc) (lnum offs : Nat) :
    (lnum, offs) ∈ (insert_old_idx s lnum offs).old_idx := by
  unfold insert_old_idx
  split
  · assumption
  · exact List.mem_cons_self _ _

/-- C2: behaviour of `dirty_cow_znode` on a loaded branch.  If the target
znode carries COW, it is not mutated in place: a fresh copy (arena id
`s.next`) gets COW cleared and DIRTY set, every loaded child of a
non-leaf original is reparented to the copy, the original is marked
OBSOLETE (and otherwise untouched), the original's (lnum, offs) enters
the old-index tree exactly when the branch has a non-zero on-flash
length, and the branch is redirected to the copy with (lnum, offs, len)
zeroed.  If the target is neither COW nor DIRTY, the same znode is
returned in place with DIRTY set and its old image charged to the dirty
accounting. -/
theorem dirty_cow_znode_spec (s : Tnc) (zbr : Zbr) (zid : Nat)
    (hz : zbr.znode = some zid) (hzid : zid < s.next)
    (hch : ∀ b ∈ (s.store zid).zbranch, ∀ cid, b.znode = some cid →
      cid < s.next ∧ cid ≠ zid) :
    ((s.store zid).cow = true →
      (dirty_cow_znode s zbr).2.2 = some s.next ∧
      s.next ≠ zid ∧
      (dirty_cow_znode s zbr).1.store s.next =
        { s.store zid with cnext := false, dirty := true, cow := false } ∧
      (dirty_cow_znode s zbr).1.store zid =
        { s.store zid with obsolete := true } ∧
      ((s.store zid).level ≠ 0 → ∀ b ∈ (s.store zid).zbranch, ∀ cid,
        b.znode = some cid →
        (dirty_cow_znode s zbr).1.store cid =
          { s.store cid with parent := some s.next }) ∧
      (zbr.len ≠ 0 → (zbr.lnum, zbr.offs) ∈ (dirty_cow_znode s zbr).1.old_idx) ∧
      (zbr.len = 0 → (dirty_cow_znode s zbr).1.old_idx = s.old_idx) ∧
      (dirty_cow_znode s zbr).2.1 =
        { zbr with znode := some s.next, lnum := 0, offs := 0, len := 0 }) ∧
    ((s.store zid).cow = false → (s.store zid).dirty = false →
      (dirty_cow_znode s zbr).2.2 = some zid ∧
      (dirty_cow_znode s zbr).1.store zid = { s.store zid with dirty := true } ∧
      (∀ j, j ≠ zid → (dirty_cow_znode s zbr).1.store j = s.store j) ∧
      (zbr.lnum, zbr.len) ∈ (dirty_cow_znode s zbr).1.idx_dirt ∧
      (dirty_cow_znode s zbr).1.old_idx = s.old_idx ∧
      (dirty_cow_znode s zbr).2.1 = zbr) := by
  constructor
  · intro hcow
    have heq := dirty_cow_znode_cow_eq s zbr zid hz hcow
    have hstore : (dirty_cow_znode s zbr).1.store = (copy_znode s zid).1.store := by
      rw [heq]
      split
      · rw [show ∀ t : Tnc, ∀ l d, (add_idx_dirt t l d).store = t.store from fun _ _ _ => rfl]
        rw [insert_old_idx_store]
      · rfl
    refine ⟨?_, by omega, ?_, ?_, ?_, ?_, ?_, ?_⟩
    · rw [heq, copy_znode_id]
    · rw [hstore, copy_znode_id] at *
      exact copy_znode_store_new s zid hzid hch
    · rw [hstore]
      exact copy_znode_store_orig s zid hzid hch
    · intro hlevel b hb cid hcid
      rw [hstore, copy_znode_id] at *
      exact copy_znode_store_child s zid hzid hch hlevel b hb cid hcid
    · intro hlen
      rw [heq, if_pos hlen]
      show (zbr.lnum, zbr.offs) ∈ (insert_old_idx (copy_znode s zid).1 zbr.lnum zbr.offs).old_idx
      exact mem_insert_old_idx _ _ _
    · intro hlen
      rw [heq, if_neg (by simp [hlen])]
      exact copy_znode_old_idx s zid
    · rw [heq, copy_znode_id]
  · intro hcow hdirty
    have heq := dirty_cow_znode_clean_eq s zbr zid hz hcow hdirty
    refine ⟨by rw [heq], ?_, ?_, ?_, by rw [heq]; rfl, by rw [heq]⟩
    · rw [heq]
      exact upd_store_self s zid (fun z => { z with dirty := true })
    · intro j hj
      rw [heq]
      exact upd_store_other s zid (fun z => { z with dirty := true }) j hj
    · rw [heq]
      exact List.mem_cons_self _ _

/-- Witness for C2: a two-znode arena where znode 0 (level 1, COW, child
branch to znode 1) is copied to id 2: the clone is DIRTY and not COW, the
child is reparented, the original becomes OBSOLETE, and the branch is
redirected and zeroed. -/
theorem dirty_cow_znode_spec_witness :
    (dirty_cow_znode
        (Tnc.mk
          (fun j =>
            if j = 0 then
              Znode.mk 1 [Zbr.mk ⟨3, .ino, 0⟩ 12 0 64 (some 1)] none 0 false true false true
            else if j = 1 then
              Znode.mk 0 [Zbr.mk ⟨3, .ino, 0⟩ 13 0 40 none] (some 0) 0 false false false false
            else Znode.mk 0 [] none 0 false false false false)
          2 [] [] 0 0)
        (Zbr.mk ⟨3, .ino, 0⟩ 20 128 96 (some 0))).1.store 1 =
      Znode.mk 0 [Zbr.mk ⟨3, .ino, 0⟩ 13 0 40 none] (some 2) 0 false false false false ∧
    (dirty_cow_znode
        (Tnc.mk
          (fun j =>
            if j = 0 then
              Znode.mk 1 [Zbr.mk ⟨3, .ino, 0⟩ 12 0 64 (some 1)] none 0 false true false true
            else if j = 1 then
              Znode.mk 0 [Zbr.mk ⟨3, .ino, 0⟩ 13 0 40 none] (some 0) 0 false false false false
            else Znode.mk 0 [] none 0 false false false false)
          2 [] [] 0 0)
        (Zbr.mk ⟨3, .ino, 0⟩ 20 128 96 (some 0))).2.1 =
      Zbr.mk ⟨3, .ino, 0⟩ 0 0 0 (some 2) := by
  have h := (dirty_cow_znode_spec
    (Tnc.mk
      (fun j =>
        if j = 0 then
          Znode.mk 1 [Zbr.mk ⟨3, .ino, 0⟩ 12 0 64 (some 1)] none 0 false true false true
        else if j = 1 then
          Znode.mk 0 [Zbr.mk ⟨3, .ino, 0⟩ 13 0 40 none] (some 0) 0 false false false false
        else Znode.mk 0 [] none 0 false false false false)
      2 [] [] 0 0)
    (Zbr.mk ⟨3, .ino, 0⟩ 20 128 96 (some 0)) 0 rfl (by decide)
    (by
      intro b hb cid hcid
      simp at hb
      subst hb
      simp at hcid
      show cid < 2 ∧ cid ≠ 0
      omega)).1 (by decide)
  refine ⟨?_, ?_⟩
  · have h5 := h.2.2.2.2.1 (by decide)
      (Zbr.mk ⟨3, .ino, 0⟩ 12 0 64 (some 1)) (by decide) 1 rfl
    simpa using h5
  · simpa using h.2.2.2.2.2.2.2

theorem keys_cmp_cases (a b : Key) :
    keys_cmp a b = -1 ∨ keys_cmp a b = 0 ∨ keys_cmp a b = 1 := by
  unfold keys_cmp natCmp
  split_ifs <;> simp

theorem keys_cmp_lt_iff (a b : Key) :
    keys_cmp a b < 0 ↔
      (a.inum < b.inum ∨ (a.inum = b.inum ∧ (a.ktype.code < b.ktype.code ∨
        (a.ktype.code = b.ktype.code ∧ a.disc < b.disc)))) := by
  unfold keys_cmp natCmp
  split_ifs <;> omega

theorem keys_cmp_eq_zero_iff (a b : Key) :
    keys_cmp a b = 0 ↔
      (a.inum = b.inum ∧ a.ktype.code = b.ktype.code ∧ a.disc = b.disc) := by
  unfold keys_cmp natCmp
  split_ifs <;> first
    | omega
    | (simp only [false_iff]; omega)

/-- Adjacent-slot admissibility inside a znode: the key order invariant
allows a branch pair in this order when the first key is strictly
smaller, or the keys are equivalent and hashed. -/
def keyR (a b : Key) : Prop :=
  keys_cmp a b < 0 ∨ (keys_cmp a b = 0 ∧ is_hash_key a = true)

theorem keyR_trans : ∀ a b c : Key, keyR a b → keyR b c → keyR a c := by
  intro a b c hab hbc
  rcases hab with h1 | ⟨h1, hh⟩ <;> rcases hbc with h2 | ⟨h2, hh2⟩
  · left
    rw [keys_cmp_lt_iff] at h1 h2 ⊢
    omega
  · left
    rw [keys_cmp_lt_iff] at h1 ⊢
    rw [keys_cmp_eq_zero_iff] at h2
    omega
  · left
    rw [keys_cmp_lt_iff] at h2 ⊢
    rw [keys_cmp_eq_zero_iff] at h1
    omega
  · right
    refine ⟨?_, hh⟩
    rw [keys_cmp_eq_zero_iff] at h1 h2 ⊢
    omega

instance : IsTrans Key keyR := ⟨keyR_trans⟩

/-- Translated from the key-order check of `read_znode`, tnc.c lines
301-321: adjacent keys must not decrease, and equivalent adjacent keys
are allowed only for hashed key types. -/
def key_order_ok : List Key → Bool
  | [] => true
  | [_] => true
  | k1 :: k2 :: rest =>
      if keys_cmp k1 k2 > 0 then false
      else if keys_cmp k1 k2 = 0 ∧ is_hash_key k1 = false then false
      else key_order_ok (k2 :: rest)

theorem pair_ok_iff (a b : Key) :
    (¬ keys_cmp a b > 0 ∧ ¬ (keys_cmp a b = 0 ∧ is_hash_key a = false)) ↔
      keyR a b := by
  unfold keyR
  rcases keys_cmp_cases a b with h | h | h <;> rw [h] <;>
    cases hha : is_hash_key a <;> simp [hha]

theorem key_order_ok_iff_chain (ks : List Key) :
    key_order_ok ks = true ↔ List.Chain' keyR ks := by
  induction ks with
  | nil => simp [key_order_ok]
  | cons k1 tail ih =>
    cases tail with
    | nil => simp [key_order_ok]
    | cons k2 rest =>
      rw [List.chain'_cons, ← ih]
      show (if keys_cmp k1 k2 > 0 then false
            else if keys_cmp k1 k2 = 0 ∧ is_hash_key k1 = false then false
            else key_order_ok (k2 :: rest)) = true ↔ _
      by_cases hp : keyR k1 k2
      · obtain ⟨hp1, hp2⟩ := (pair_ok_iff k1 k2).mpr hp
        rw [if_neg hp1, if_neg hp2]
        simp [hp]
      · have := (pair_ok_iff k1 k2).not.mpr hp
        push_neg at this
        by_cases hgt : keys_cmp k1 k2 > 0
        · rw [if_pos hgt]
          simp [hp]
        · rw [if_neg hgt, if_pos (this (by omega))]
          simp [hp]

theorem insertIdx_split (n : Nat) (x : Key) : ∀ l : List Key, n ≤ l.length →
    List.insertIdx n x l = l.take n ++ x :: l.drop n := by
  induction n with
  | zero =>
    intro l _
    simp [List.insertIdx]
  | succ n ih =>
    intro l h
    cases l with
    | nil => simp at h
    | cons a l =>
      rw [List.insertIdx_succ_cons, ih l (by simpa using h)]
      rfl

theorem chain'_keyR_insertIdx (ks : List Key) (m : Nat) (k : Key)
    (h : List.Chain' keyR ks) (hm : m ≤ ks.length)
    (hprev : ∀ i, i + 1 = m → ∀ a, ks[i]? = some a → keyR a k)
    (hnext : ∀ b, ks[m]? = some b → keyR k b) :
    List.Chain' keyR (List.insertIdx m k ks) := by
  rw [insertIdx_split m k ks hm]
  rw [List.chain'_append]
  refine ⟨h.take _, ?_, ?_⟩
  · rw [List.chain'_cons']
    refine ⟨fun y hy => hnext y ?_, h.drop _⟩
    rwa [List.head?_drop] at hy
  · intro x hx y hy
    simp only [List.head?_cons, Option.mem_def, Option.some.injEq] at hy
    subst hy
    cases m with
    | zero => simp at hx
    | succ i =>
      apply hprev i rfl
      rw [Option.mem_def, List.getLast?_eq_getElem?, List.length_take] at hx
      have hmin : min (i + 1) ks.length = i + 1 := by omega
      rw [hmin] at hx
      simp only [Nat.add_sub_cancel] at hx
      rwa [List.getElem?_take_of_lt (by omega : i < i + 1)] at hx

theorem map_key_insertIdx (bs : List Zbranch) (zbr : Zbranch) :
    ∀ m : Nat, (List.insertIdx m zbr bs).map Zbranch.key =
      List.insertIdx m zbr.key (bs.map Zbranch.key) := by
  induction bs with
  | nil =>
    intro m
    cases m <;> simp [List.insertIdx]
  | cons b bs ih =>
    intro m
    cases m with
    | zero => simp [List.insertIdx]
    | succ m =>
      rw [List.insertIdx_succ_cons, List.map_cons, ih m, List.map_cons,
        List.insertIdx_succ_cons]

theorem map_key_eraseIdx (bs : List Zbranch) :
    ∀ n : Nat, (bs.eraseIdx n).map Zbranch.key =
      (bs.map Zbranch.key).eraseIdx n := by
  induction bs with
  | nil => intro n; rfl
  | cons b bs ih =>
    intro n
    cases n with
    | zero => rfl
    | succ n => simp [List.eraseIdx_cons_succ, ih n]

/-- Translated from `struct ubifs_node_range` (per-key-type leaf length
bounds; `max_len = 0` means the fixed length `len` applies, as in the C). -/
structure NodeRange where
  len : Nat
  min_len : Nat
  max_len : Nat

/-- Geometry and validation parameters of `struct ubifs_info` read by
`read_znode`.  UBIFS_MAX_LEVELS (ubifs-media.h, not in this tree) is
carried as `max_levels`. -/
structure FsInfo where
  fanout : Nat
  max_levels : Nat
  leb_cnt : Nat
  main_first : Nat
  leb_size : Nat
  ranges : KType → NodeRange

/-- Translated from the per-branch validation of `read_znode`, tnc.c
lines 259-298: position sanity, recognized key type, and (for level-0
znodes) the target-length range of the key's node type. -/
def branch_ok (c : FsInfo) (level : Nat) (zbr : Zbranch) : Bool :=
  if zbr.lnum < c.main_first ∨ zbr.lnum ≥ c.leb_cnt ∨
      zbr.offs + zbr.len > c.leb_size ∨ zbr.offs &&& 7 ≠ 0 then false
  else if ¬ (zbr.key.ktype = .ino ∨ zbr.key.ktype = .data ∨
      zbr.key.ktype = .dent ∨ zbr.key.ktype = .xent) then false
  else if level ≠ 0 then true
  else if (c.ranges zbr.key.ktype).max_len = 0 then
    decide (zbr.len = (c.ranges zbr.key.ktype).len)
  else
    decide ((c.ranges zbr.key.ktype).min_len ≤ zbr.len ∧
      zbr.len ≤ (c.ranges zbr.key.ktype).max_len)

/-- Translated from `read_znode`, tnc.c lines 221-335, validation part
(the raw read `ubifs_read_node` is an external collaborator; its decoded
fields are the inputs): child count and level bounds, per-branch checks,
then the key-order check; every failure is -EINVAL (Corrupt). -/
def read_znode (c : FsInfo) (level : Nat) (branches : List Zbranch) :
    Except Int Unit :=
  if branches.length > c.fanout ∨ level > c.max_levels then .error (-22)
  else if ¬ branches.all (branch_ok c level) then .error (-22)
  else if ¬ key_order_ok (branches.map Zbranch.key) then .error (-22)
  else .ok ()

/-- Translated from `insert_zbranch`, tnc.c lines 1854-1892: shift the
branches from slot `n` right and place the new branch at `n` (the child
`iip` maintenance and the ALT marking concern the arena, not the branch
sequence). -/
def insert_zbranch (bs : List Zbranch) (zbr : Zbranch) (n : Nat) :
    List Zbranch :=
  List.insertIdx n zbr bs

/-- Translated from the branch removal of `tnc_delete`, tnc.c lines
2316-2319: close the gap at slot `n`. -/
def tnc_delete_slot (bs : List Zbranch) (n : Nat) : List Zbranch :=
  bs.eraseIdx n

/-- Translated from the replace path of `ubifs_tnc_add`, tnc.c lines
2106-2113: an existing key keeps its slot and only (lnum, offs, len) are
rewritten. -/
def tnc_replace_slot (bs : List Zbranch) (n : Nat) (lnum offs len : Nat) :
    List Zbranch :=
  match bs[n]? with
  | some zbr => bs.set n { zbr with lnum := lnum, offs := offs, len := len }
  | none => bs

theorem tnc_replace_keys (bs : List Zbranch) :
    ∀ n lnum offs len : Nat,
      (tnc_replace_slot bs n lnum offs len).map Zbranch.key =
        bs.map Zbranch.key := by
  induction bs with
  | nil => intro n _ _ _; rfl
  | cons b bs ih =>
    intro n lnum offs len
    cases n with
    | zero => simp [tnc_replace_slot]
    | succ n =>
      unfold tnc_replace_slot
      rw [List.getElem?_cons_succ]
      cases h : bs[n]? with
      | none => rfl
      | some zbr =>
        have := ih n lnum offs len
        unfold tnc_replace_slot at this
        rw [h] at this
        simpa using this

/-- C6: the branch keys of every znode are non-decreasing with equal
adjacent keys only for hashed types.  A flash index node violating the
order fails `read_znode` with -EINVAL (Corrupt) and, conversely, every
successfully loaded znode satisfies `key_order_ok`; the invariant is
preserved by `insert_zbranch` at a slot whose neighbours admit the new
key, by branch removal (`tnc_delete`), and by in-place replacement
(`ubifs_tnc_add`'s found path), which does not change keys at all. -/
theorem znode_key_order_invariant :
    (∀ (c : FsInfo) (level : Nat) (branches : List Zbranch),
      key_order_ok (branches.map Zbranch.key) = false →
      read_znode c level branches = .error (-22)) ∧
    (∀ (c : FsInfo) (level : Nat) (branches : List Zbranch),
      read_znode c level branches = .ok () →
      key_order_ok (branches.map Zbranch.key) = true) ∧
    (∀ (bs : List Zbranch) (m : Nat) (zbr : Zbranch),
      key_order_ok (bs.map Zbranch.key) = true → m ≤ bs.length →
      (∀ i, i + 1 = m → ∀ a, bs[i]? = some a → keyR a.key zbr.key) →
      (∀ b, bs[m]? = some b → keyR zbr.key b.key) →
      key_order_ok ((insert_zbranch bs zbr m).map Zbranch.key) = true) ∧
    (∀ (bs : List Zbranch) (n : Nat),
      key_order_ok (bs.map Zbranch.key) = true →
      key_order_ok ((tnc_delete_slot bs n).map Zbranch.key) = true) ∧
    (∀ (bs : List Zbranch) (n lnum offs len : Nat),
      key_order_ok ((tnc_replace_slot bs n lnum offs len).map Zbranch.key) =
        key_order_ok (bs.map Zbranch.key)) := by
  refine ⟨?_, ?_, ?_, ?_, ?_⟩
  · intro c level branches hbad
    unfold read_znode
    split_ifs <;> simp_all
  · intro c level branches hok
    unfold read_znode at hok
    split_ifs at hok <;> simp_all
  · intro bs m zbr hok hm hprev hnext
    unfold insert_zbranch
    rw [map_key_insertIdx]
    rw [key_order_ok_iff_chain] at hok ⊢
    apply chain'_keyR_insertIdx _ _ _ hok (by simpa using hm)
    · intro i hi a ha
      rw [List.getElem?_map] at ha
      cases hb : bs[i]? with
      | none => rw [hb] at ha; simp at ha
      | some b =>
        rw [hb] at ha
        simp only [Option.map_some'] at ha
        cases ha
        exact hprev i hi b hb
    · intro b hb
      rw [List.getElem?_map] at hb
      cases hb' : bs[m]? with
      | none => rw [hb'] at hb; simp at hb
      | some b' =>
        rw [hb'] at hb
        simp only [Option.map_some'] at hb
        cases hb
        exact hnext b' hb'
  · intro bs n hok
    unfold tnc_delete_slot
    rw [map_key_eraseIdx]
    rw [key_order_ok_iff_chain] at hok ⊢
    rw [List.chain'_iff_pairwise] at hok ⊢
    exact hok.sublist (List.eraseIdx_sublist _ n)
  · intro bs n lnum offs len
    rw [tnc_replace_keys]

/-- Witness for C6: a three-branch level-0 znode with two equal hashed
keys loads cleanly, a violating node is rejected with -EINVAL, and
insertion, deletion and replacement keep the order. -/
theorem znode_key_order_invariant_witness :
    read_znode
        (FsInfo.mk 8 512 100 10 4096 (fun _ => NodeRange.mk 0 1 4096))
        0
        [Zbranch.mk ⟨3, .dent, 7⟩ 12 0 40, Zbranch.mk ⟨3, .dent, 7⟩ 12 48 40,
          Zbranch.mk ⟨3, .dent, 9⟩ 12 96 40] = .ok () ∧
    read_znode
        (FsInfo.mk 8 512 100 10 4096 (fun _ => NodeRange.mk 0 1 4096))
        0
        [Zbranch.mk ⟨3, .dent, 9⟩ 12 0 40, Zbranch.mk ⟨3, .dent, 7⟩ 12 48 40] =
      .error (-22) ∧
    key_order_ok ((insert_zbranch
        [Zbranch.mk ⟨3, .dent, 7⟩ 12 0 40, Zbranch.mk ⟨3, .dent, 9⟩ 12 96 40]
        (Zbranch.mk ⟨3, .dent, 8⟩ 13 0 40) 1).map Zbranch.key) = true ∧
    key_order_ok ((tnc_delete_slot
        [Zbranch.mk ⟨3, .dent, 7⟩ 12 0 40, Zbranch.mk ⟨3, .dent, 8⟩ 13 0 40,
          Zbranch.mk ⟨3, .dent, 9⟩ 12 96 40] 1).map Zbranch.key) = true ∧
    key_order_ok ((tnc_replace_slot
        [Zbranch.mk ⟨3, .dent, 7⟩ 12 0 40, Zbranch.mk ⟨3, .dent, 9⟩ 12 96 40]
        1 14 0 48).map Zbranch.key) =
      key_order_ok ([Zbranch.mk ⟨3, .dent, 7⟩ 12 0 40,
        Zbranch.mk ⟨3, .dent, 9⟩ 12 96 40].map Zbranch.key) := by
  refine ⟨rfl, ?_, ?_, ?_, ?_⟩
  · exact znode_key_order_invariant.1
      (FsInfo.mk 8 512 100 10 4096 (fun _ => NodeRange.mk 0 1 4096)) 0
      [Zbranch.mk ⟨3, .dent, 9⟩ 12 0 40, Zbranch.mk ⟨3, .dent, 7⟩ 12 48 40]
      (by decide)
  · exact znode_key_order_invariant.2.2.1
      [Zbranch.mk ⟨3, .dent, 7⟩ 12 0 40, Zbranch.mk ⟨3, .dent, 9⟩ 12 96 40]
      1 (Zbranch.mk ⟨3, .dent, 8⟩ 13 0 40) (by decide) (by decide)
      (by
        intro i hi a ha
        have hi0 : i = 0 := by omega
        subst hi0
        simp at ha
        subst ha
        show keys_cmp ⟨3, .dent, 7⟩ ⟨3, .dent, 8⟩ < 0 ∨ _
        left
        decide)
      (by
        intro b hb
        simp at hb
        subst hb
        show keys_cmp ⟨3, .dent, 8⟩ ⟨3, .dent, 9⟩ < 0 ∨ _
        left
        decide)
  · exact znode_key_order_invariant.2.2.2.1
      [Zbranch.mk ⟨3, .dent, 7⟩ 12 0 40, Zbranch.mk ⟨3, .dent, 8⟩ 13 0 40,
        Zbranch.mk ⟨3, .dent, 9⟩ 12 96 40] 1 (by decide)
  · exact znode_key_order_invariant.2.2.2.2
      [Zbranch.mk ⟨3, .dent, 7⟩ 12 0 40, Zbranch.mk ⟨3, .dent, 9⟩ 12 96 40]
      1 14 0 48

/-- Return codes of `fallible_matches_name`, tnc.c lines 46-51:
NAME_LESS, NAME_MATCHES, NAME_GREATER, NOT_ON_MEDIA. -/
inductive NameCmp4 where
  | less
  | matched
  | greater
  | notOnMedia
deriving DecidableEq

/-- A level-0 branch as seen by the collision walks: its key and the
(deterministic) outcome of `fallible_matches_name` against the searched
name; the walk itself never inspects anything else of the branch. -/
structure CBranch where
  key : Key
  fm : NameCmp4
deriving DecidableEq

/-- Translated from the "look left" loop of `fallible_resolve_collision`,
tnc.c lines 1150-1176.  The collision run is modelled on the flattened
level-0 branch sequence, where `tnc_prev` is a step from index j+1 to j
(it returns -ENOENT at index 0, ending the loop with slot -1); the first
argument is the current index.  NAME_LESS or a key mismatch break,
NAME_MATCHES returns the slot (inr), NOT_ON_MEDIA overwrites the
dangling candidate, NAME_GREATER clears `unsure`. -/
def frc_lookLeft (bs : List CBranch) (key : Key) :
    Nat → Option Nat → Bool → (Option Nat × Bool) ⊕ Nat
  | 0, o, unsure => .inl (o, unsure)
  | j + 1, o, unsure =>
    match bs[j]? with
    | none => .inl (o, unsure)
    | some b =>
      if ¬ keys_cmp b.key key = 0 then .inl (o, unsure)
      else
        match b.fm with
        | .less => .inl (o, unsure)
        | .matched => .inr j
        | .notOnMedia => frc_lookLeft bs key j (some j) unsure
        | .greater => frc_lookLeft bs key j o false

/-- Translated from the "look right" loop of `fallible_resolve_collision`,
tnc.c lines 1178-1204: `tnc_next` walks the remaining suffix (the list
argument is the suffix after index j, so its head has index j+1).
NAME_GREATER or a key mismatch or the end of the index break,
NAME_MATCHES returns the slot, NOT_ON_MEDIA overwrites the dangling
candidate, NAME_LESS continues. -/
def frc_lookRight (key : Key) : List CBranch → Nat → Option Nat →
    Option Nat ⊕ Nat
  | [], _, o => .inl o
  | b :: rest, j, o =>
    if ¬ keys_cmp b.key key = 0 then .inl o
    else
      match b.fm with
      | .greater => .inl o
      | .matched => .inr (j + 1)
      | .notOnMedia => frc_lookRight key rest (j + 1) (some (j + 1))
      | .less => frc_lookRight key rest (j + 1) o

/-- Translated from `fallible_resolve_collision`, tnc.c lines 1123-1215:
compare the start branch; an immediate NAME_MATCHES is the answer; a
NOT_ON_MEDIA start records the branch and sets `unsure`; then look left
when the start compared GREATER or the walk is unsure, then look right
when the start compared LESS or is still unsure; a match found by either
walk is returned, otherwise the recorded dangling branch (if any) is
returned as the result (`some`), and `none` means not found (return 0). -/
def fallible_resolve_collision (bs : List CBranch) (key : Key) (i : Nat) :
    Option Nat :=
  match bs[i]? with
  | none => none
  | some b0 =>
    if b0.fm = .matched then some i
    else
      let unsure0 := b0.fm = .notOnMedia
      let o0 : Option Nat := if b0.fm = .notOnMedia then some i else none
      let left : (Option Nat × Bool) ⊕ Nat :=
        if b0.fm = .greater ∨ unsure0 then frc_lookLeft bs key i o0 unsure0
        else .inl (o0, unsure0)
      match left with
      | .inr j => some j
      | .inl (o1, unsure1) =>
        let right : Option Nat ⊕ Nat :=
          if b0.fm = .less ∨ unsure1 then frc_lookRight key (bs.drop (i + 1)) i o1
          else .inl o1
        match right with
        | .inr j => some j
        | .inl o2 => o2

/-- The property a slot must have to be handed back by the walks: either
a definitive match or a recorded dangling branch with the search key
(the start slot is compared without a key check). -/
def frc_good (bs : List CBranch) (key : Key) (i j : Nat) : Prop :=
  ∃ b, bs[j]? = some b ∧ (b.fm = .matched ∨ b.fm = .notOnMedia) ∧
    (keys_cmp b.key key = 0 ∨ j = i)

theorem frc_lookLeft_sound (bs : List CBranch) (key : Key) (i : Nat) :
    ∀ (j : Nat) (o : Option Nat) (u : Bool),
      (∀ r, o = some r → frc_good bs key i r) →
      (∀ o' u', frc_lookLeft bs key j o u = .inl (o', u') →
        ∀ r, o' = some r → frc_good bs key i r) ∧
      (∀ j', frc_lookLeft bs key j o u = .inr j' → frc_good bs key i j') := by
  intro j
  induction j with
  | zero =>
    intro o u ho
    refine ⟨?_, ?_⟩
    · intro o' u' h r hr
      unfold frc_lookLeft at h
      cases h
      exact ho r hr
    · intro j' h
      simp [frc_lookLeft] at h
  | succ j ih =>
    intro o u ho
    unfold frc_lookLeft
    cases hb : bs[j]? with
    | none =>
      refine ⟨?_, ?_⟩
      · intro o' u' h r hr
        cases h
        exact ho r hr
      · intro j' h
        simp at h
    | some b =>
      dsimp only
      by_cases hk : ¬ keys_cmp b.key key = 0
      · rw [if_pos hk]
        refine ⟨?_, ?_⟩
        · intro o' u' h r hr
          cases h
          exact ho r hr
        · intro j' h
          simp at h
      · rw [if_neg hk]
        push_neg at hk
        cases hfm : b.fm with
        | less =>
          refine ⟨?_, ?_⟩
          · intro o' u' h r hr
            cases h
            exact ho r hr
          · intro j' h
            simp at h
        | matched =>
          refine ⟨?_, ?_⟩
          · intro o' u' h
            simp at h
          · intro j' h
            cases h
            exact ⟨b, hb, Or.inl hfm, Or.inl hk⟩
        | notOnMedia =>
          exact ih (some j) u
            (fun r hr => by
              cases hr
              exact ⟨b, hb, Or.inr hfm, Or.inl hk⟩)
        | greater =>
          exact ih o false ho

theorem frc_lookRight_sound (bs : List CBranch) (key : Key) (i : Nat) :
    ∀ (rest : List CBranch) (j : Nat) (o : Option Nat),
      (∀ m, rest = bs.drop (m + 1) → True) →
      (∀ b' idx, rest[idx]? = some b' → bs[j + 1 + idx]? = some b') →
      (∀ r, o = some r → frc_good bs key i r) →
      (∀ o', frc_lookRight key rest j o = .inl o' →
        ∀ r, o' = some r → frc_good bs key i r) ∧
      (∀ j', frc_lookRight key rest j o = .inr j' → frc_good bs key i j') := by
  intro rest
  induction rest with
  | nil =>
    intro j o _ _ ho
    refine ⟨?_, ?_⟩
    · intro o' h r hr
      cases h
      exact ho r hr
    · intro j' h
      simp [frc_lookRight] at h
  | cons b rest ih =>
    intro j o _ hidx ho
    unfold frc_lookRight
    have hbj : bs[j + 1]? = some b := by
      have := hidx b 0 (by simp)
      simpa using this
    by_cases hk : ¬ keys_cmp b.key key = 0
    · rw [if_pos hk]
      refine ⟨?_, ?_⟩
      · intro o' h r hr
        cases h
        exact ho r hr
      · intro j' h
        simp at h
    · rw [if_neg hk]
      push_neg at hk
      have hidx' : ∀ b' idx, rest[idx]? = some b' → bs[(j + 1) + 1 + idx]? = some b' := by
        intro b' idx h
        have := hidx b' (idx + 1) (by simpa using h)
        rwa [show j + 1 + (idx + 1) = j + 1 + 1 + idx by omega] at this
      cases hfm : b.fm with
      | greater =>
        refine ⟨?_, ?_⟩
        · intro o' h r hr
          cases h
          exact ho r hr
        · intro j' h
          simp at h
      | matched =>
        refine ⟨?_, ?_⟩
        · intro o' h
          simp at h
        · intro j' h
          cases h
          exact ⟨b, hbj, Or.inl hfm, Or.inl hk⟩
      | notOnMedia =>
        exact ih (j + 1) (some (j + 1)) (fun _ _ => trivial) hidx'
          (fun r hr => by
            cases hr
            exact ⟨b, hbj, Or.inr hfm, Or.inl hk⟩)
      | less =>
        exact ih (j + 1) o (fun _ _ => trivial) hidx' ho

theorem frc_lookLeft_all_nom (bs : List CBranch) (key : Key)
    (hall : ∀ b ∈ bs, b.fm = .notOnMedia ∧ keys_cmp b.key key = 0) :
    ∀ j, j ≤ bs.length → ∀ o,
      frc_lookLeft bs key j o true =
        .inl ((if j = 0 then o else some 0), true) := by
  intro j
  induction j with
  | zero =>
    intro _ o
    rfl
  | succ j ih =>
    intro hj o
    have hjl : j < bs.length := by omega
    have hb : bs[j]? = some bs[j] := List.getElem?_eq_getElem hjl
    obtain ⟨hfm, hk⟩ := hall bs[j] (List.getElem_mem hjl)
    unfold frc_lookLeft
    simp only [hb]
    rw [if_neg (by simp [hk])]
    rw [hfm]
    rw [ih (by omega) (some j)]
    cases j with
    | zero => simp
    | succ j' => simp

theorem frc_lookRight_all_nom (key : Key) :
    ∀ rest : List CBranch,
      (∀ b ∈ rest, b.fm = .notOnMedia ∧ keys_cmp b.key key = 0) →
      ∀ j o, frc_lookRight key rest j o =
        .inl (if rest.isEmpty then o else some (j + rest.length)) := by
  intro rest
  induction rest with
  | nil =>
    intro _ j o
    rfl
  | cons b rest ih =>
    intro hall j o
    obtain ⟨hfm, hk⟩ := hall b (List.mem_cons_self _ _)
    unfold frc_lookRight
    rw [if_neg (by simp [hk])]
    rw [hfm]
    rw [ih (fun x hx => hall x (List.mem_cons_of_mem _ hx)) (j + 1) (some (j + 1))]
    cases rest with
    | nil => simp
    | cons c rest' =>
      simp only [List.isEmpty_cons, List.length_cons, Sum.inl.injEq,
        if_neg (by simp : ¬ false = true), Option.some.injEq]
      omega

/-- Counterexample for C4: two colliding dangling branches, search
starting at slot 0.  The first branch on which the name comparison
yields NOT_ON_MEDIA (and which is first recorded) is slot 0, but the
function returns slot 1: the recorded candidate is overwritten by each
later NOT_ON_MEDIA comparison, so the returned dangling branch is not
the first one. -/
theorem fallible_resolve_collision_not_first :
    (([⟨⟨5, .dent, 7⟩, .notOnMedia⟩, ⟨⟨5, .dent, 7⟩, .notOnMedia⟩] :
        List CBranch)[0]?).map CBranch.fm = some .notOnMedia ∧
    fallible_resolve_collision
        [⟨⟨5, .dent, 7⟩, .notOnMedia⟩, ⟨⟨5, .dent, 7⟩, .notOnMedia⟩]
        ⟨5, .dent, 7⟩ 0 = some 1 ∧
    fallible_resolve_collision
        [⟨⟨5, .dent, 7⟩, .notOnMedia⟩, ⟨⟨5, .dent, 7⟩, .notOnMedia⟩]
        ⟨5, .dent, 7⟩ 0 ≠ some 0 := by
  refine ⟨rfl, rfl, by decide⟩

/-- C4 (amended): during replay, every NOT_ON_MEDIA name comparison
overwrites the recorded dangling candidate; a result slot is always
either a definitive match or a dangling branch carrying the searched key
(soundness; the start slot is admitted without a key check), and when
every colliding branch is dangling the function returns found with the
most recently visited dangling branch — the rightmost one (or slot 0
when the walk starts at the last slot) — not the first one recorded. -/
theorem fallible_resolve_collision_amended (bs : List CBranch) (key : Key)
    (i : Nat) :
    (∀ j, fallible_resolve_collision bs key i = some j → frc_good bs key i j) ∧
    ((∀ b ∈ bs, b.fm = .notOnMedia ∧ keys_cmp b.key key = 0) →
      i < bs.length →
      fallible_resolve_collision bs key i =
        some (if i + 1 < bs.length then bs.length - 1 else 0)) := by
  constructor
  · intro j hres
    unfold fallible_resolve_collision at hres
    cases hb : bs[i]? with
    | none =>
      rw [hb] at hres
      cases hres
    | some b0 =>
      rw [hb] at hres
      dsimp only at hres
      by_cases hm : b0.fm = .matched
      · rw [if_pos hm] at hres
        cases hres
        exact ⟨b0, hb, Or.inl hm, Or.inr rfl⟩
      · rw [if_neg hm] at hres
        have ho0 : ∀ r,
            (if b0.fm = .notOnMedia then some i else none : Option Nat) =
              some r → frc_good bs key i r := by
          intro r hr
          split at hr
          · cases hr
            exact ⟨b0, hb, Or.inr (by assumption), Or.inr rfl⟩
          · cases hr
        have hidx : ∀ b' idx, (bs.drop (i + 1))[idx]? = some b' →
            bs[i + 1 + idx]? = some b' := by
          intro b' idx h
          rwa [List.getElem?_drop] at h
        rcases heqL : (if b0.fm = NameCmp4.greater ∨ b0.fm = NameCmp4.notOnMedia then
            frc_lookLeft bs key i (if b0.fm = NameCmp4.notOnMedia then some i else none)
              (decide (b0.fm = NameCmp4.notOnMedia))
          else Sum.inl (if b0.fm = NameCmp4.notOnMedia then some i else none,
            decide (b0.fm = NameCmp4.notOnMedia))) with ⟨o1, u1⟩ | j'
        · rw [heqL] at hres
          dsimp only at hres
          have hgood1 : ∀ r, o1 = some r → frc_good bs key i r := by
            split at heqL
            · exact (frc_lookLeft_sound bs key i i _ _ ho0).1 o1 u1 heqL
            · cases heqL
              exact ho0
          rcases heqR : (if b0.fm = NameCmp4.less ∨ u1 = true then
              frc_lookRight key (List.drop (i + 1) bs) i o1
            else Sum.inl o1) with o2 | j'
          · rw [heqR] at hres
            dsimp only at hres
            split at heqR
            · exact (frc_lookRight_sound bs key i (List.drop (i + 1) bs) i _
                (fun _ _ => trivial) hidx hgood1).1 o2 heqR j hres
            · cases heqR
              exact hgood1 j hres
          · rw [heqR] at hres
            dsimp only at hres
            cases hres
            split at heqR
            · exact (frc_lookRight_sound bs key i (List.drop (i + 1) bs) i _
                (fun _ _ => trivial) hidx hgood1).2 _ heqR
            · cases heqR
        · rw [heqL] at hres
          dsimp only at hres
          cases hres
          split at heqL
          · exact (frc_lookLeft_sound bs key i i _ _ ho0).2 _ heqL
          · cases heqL
  · intro hall hi
    have hb : bs[i]? = some bs[i] := List.getElem?_eq_getElem hi
    obtain ⟨hfm, hk⟩ := hall bs[i] (List.getElem_mem hi)
    unfold fallible_resolve_collision
    rw [hb]
    dsimp only
    rw [if_neg (by rw [hfm]; intro h; cases h)]
    rw [if_pos (by rw [hfm]; right; rfl)]
    rw [if_pos (by rw [hfm])]
    rw [show (decide (bs[i].fm = NameCmp4.notOnMedia)) = true by simp [hfm]]
    rw [frc_lookLeft_all_nom bs key hall i (by omega) _]
    rw [show (if i = 0 then some i else some 0 : Option Nat) = some 0 by
      split
      · simp_all
      · rfl]
    dsimp only
    rw [if_pos (Or.inr rfl)]
    rw [frc_lookRight_all_nom key (List.drop (i + 1) bs)
      (fun b hbm => hall b (List.mem_of_mem_drop hbm)) i (some 0)]
    dsimp only
    split
    · rename_i hscr
      rw [List.isEmpty_iff, List.drop_eq_nil_iff] at hscr
      rw [if_neg (by omega)]
    · rename_i hscr
      rw [List.isEmpty_iff, List.drop_eq_nil_iff] at hscr
      rw [List.length_drop]
      rw [if_pos (by omega)]
      congr 1
      omega

/-- Witness for C4 (amended): in the two-dangling-branch run the result
slot 1 is a dangling branch with the searched key, and the all-dangling
characterization instantiates to slot 1 (the rightmost), not slot 0. -/
theorem fallible_resolve_collision_amended_witness :
    frc_good [⟨⟨5, .dent, 7⟩, .notOnMedia⟩, ⟨⟨5, .dent, 7⟩, .notOnMedia⟩]
      ⟨5, .dent, 7⟩ 0 1 ∧
    fallible_resolve_collision
        [⟨⟨5, .dent, 7⟩, .notOnMedia⟩, ⟨⟨5, .dent, 7⟩, .notOnMedia⟩]
        ⟨5, .dent, 7⟩ 0 = some (if 0 + 1 < 2 then 2 - 1 else 0) :=
  ⟨(fallible_resolve_collision_amended
      [⟨⟨5, .dent, 7⟩, .notOnMedia⟩, ⟨⟨5, .dent, 7⟩, .notOnMedia⟩]
      ⟨5, .dent, 7⟩ 0).1 1 rfl,
   (fallible_resolve_collision_amended
      [⟨⟨5, .dent, 7⟩, .notOnMedia⟩, ⟨⟨5, .dent, 7⟩, .notOnMedia⟩]
      ⟨5, .dent, 7⟩ 0).2 (by decide) (by decide)⟩

/-- Decidable equality for Except values, needed to evaluate the lookup
results on concrete inputs. -/
instance exceptDecEq {ε α : Type} [DecidableEq ε] [DecidableEq α] :
    DecidableEq (Except ε α) := fun a b =>
  match a, b with
  | .ok x, .ok y =>
      match decEq x y with
      | isTrue h => isTrue (by rw [h])
      | isFalse h => isFalse (fun hc => by cases hc; exact h rfl)
  | .error x, .error y =>
      match decEq x y with
      | isTrue h => isTrue (by rw [h])
      | isFalse h => isFalse (fun hc => by cases hc; exact h rfl)
  | .ok _, .error _ => isFalse (fun hc => by cases hc)
  | .error _, .ok _ => isFalse (fun hc => by cases hc)

/-- Return codes of `matches_name`, tnc.c lines 46-51 (NOT_ON_MEDIA is
impossible here: `tnc_read_node` fails instead of reporting absence). -/
inductive NameCmp3 where
  | less
  | matched
  | greater
deriving DecidableEq

/-- A decoded directory/xattr entry node as the lookup paths see it: its
name and whether `ubifs_validate_entry` accepts it (that check reads only
the node's own length/type fields). -/
structure Dent where
  name : List Char
  valid : Bool
deriving DecidableEq

/-- A level-0 branch as seen by the lookup paths: its key and the
deterministic outcome of reading the node at its (lnum, offs, len) from
the media (the read oracle). -/
structure LBranch where
  key : Key
  read : Except Int Dent
deriving DecidableEq

/-- Translated from `tnc_read_node`, tnc.c lines 626-666: read the leaf
node, then `lnc_add` (lines 572-599) validates the entry before caching
it — but only for directory-entry keys ("Add all dents, but nothing
else"), so an invalid node under an xattr-entry key is returned without
complaint here. -/
def tnc_read_node (zbr : LBranch) : Except Int Dent :=
  match zbr.read with
  | .error e => .error e
  | .ok d =>
      if zbr.key.ktype = .dent ∧ d.valid = false then .error (-22)
      else .ok d

/-- Translated from the memcmp-then-length name comparison shared by
`matches_name` (tnc.c lines 818-830). -/
def name_cmp : List Char → List Char → NameCmp3
  | [], [] => .matched
  | [], _ :: _ => .less
  | _ :: _, [] => .greater
  | a :: as, b :: bs =>
      if a = b then name_cmp as bs
      else if a < b then .less else .greater

/-- Outcome of a code path that may hit undefined behaviour: an error
return, a successful value, or a NULL-pointer dereference (`crash`). -/
inductive COut (α : Type) where
  | err (e : Int)
  | crash
  | val (a : α)
deriving DecidableEq

/-- Translated from `matches_name`, tnc.c lines 787-835.  When
`zbr->leaf` is empty the entry is read (`tnc_read_node`, which for a
dent key already validates inside `lnc_add` and fills `zbr->leaf`) and
validated again; the comparison at lines 817-818 then dereferences
`zbr->leaf`, which only `lnc_add` ever fills ("Add all dents, but
nothing else", line 583).  So for a dent key the cached node is the node
just read and the names are compared; for every other hashed key (xattr
entries) the pointer is still NULL after a successful read and
validation, and the function crashes.  `kmalloc` is assumed to succeed,
and a cached dent equals a fresh read of the same branch (the read
oracle is deterministic), so the cache state needs no tracking. -/
def matches_name (zbr : LBranch) (nm : List Char) : COut NameCmp3 :=
  match tnc_read_node zbr with
  | .error e => .err e
  | .ok d =>
      if d.valid = false then .err (-22)
      else if zbr.key.ktype = .dent then .val (name_cmp d.name nm)
      else .crash

/-- Translated from the "look left" loop of `resolve_collision`, tnc.c
lines 976-997, on the flattened branch sequence (`tnc_prev` steps from
index j+1 to j and returns -ENOENT at 0, which the loop turns into
not-found with slot -1). -/
def rc_lookLeft (bs : List LBranch) (key : Key) (nm : List Char) :
    Nat → COut (Option Nat)
  | 0 => .val none
  | j + 1 =>
    match bs[j]? with
    | none => .val none
    | some b =>
      if ¬ keys_cmp b.key key = 0 then .val none
      else
        match matches_name b nm with
        | .err e => .err e
        | .crash => .crash
        | .val .less => .val none
        | .val .matched => .val (some j)
        | .val .greater => rc_lookLeft bs key nm j

/-- Translated from the "look right" loop of `resolve_collision`, tnc.c
lines 998-1022 (`tnc_next` walks the suffix after index j, whose head
has index j+1). -/
def rc_lookRight (key : Key) (nm : List Char) :
    List LBranch → Nat → COut (Option Nat)
  | [], _ => .val none
  | b :: rest, j =>
    if ¬ keys_cmp b.key key = 0 then .val none
    else
      match matches_name b nm with
      | .err e => .err e
      | .crash => .crash
      | .val .greater => .val none
      | .val .matched => .val (some (j + 1))
      | .val .less => rc_lookRight key nm rest (j + 1)

/-- Translated from `resolve_collision`, tnc.c lines 964-1023: compare
the start branch; MATCHES is the answer, GREATER walks left, LESS walks
right; `some` is "found" (return 1), `none` is "not found" (return 0). -/
def resolve_collision (bs : List LBranch) (key : Key) (i : Nat)
    (nm : List Char) : COut (Option Nat) :=
  match bs[i]? with
  | none => .val none
  | some b =>
    match matches_name b nm with
    | .err e => .err e
    | .crash => .crash
    | .val .matched => .val (some i)
    | .val .greater => rc_lookLeft bs key nm i
    | .val .less => rc_lookRight key nm (bs.drop (i + 1)) i

/-- Translated from the hashed-key path of `ubifs_tnc_lookup`, tnc.c
lines 1633-1667: `lookup_level0` (its deterministic outcome is the
`found` argument: error, not found, or the slot of an exact match in the
flattened branch list) followed by `tnc_read_node` on the found branch;
not found is -ENOENT. -/
def ubifs_tnc_lookup_hashed (bs : List LBranch)
    (found : Except Int (Option Nat)) : Except Int Dent :=
  match found with
  | .error e => .error e
  | .ok none => .error (-2)
  | .ok (some n) =>
      match bs[n]? with
      | none => .error (-2)
      | some zt => tnc_read_node zt

/-- Translated from `do_lookup_nm`, tnc.c lines 1735-1773: the same
`lookup_level0` outcome, then `resolve_collision`, then a read of the
resolved branch; a failed resolution is -ENOENT. -/
def do_lookup_nm (bs : List LBranch) (found : Except Int (Option Nat))
    (key : Key) (nm : List Char) : COut Dent :=
  match found with
  | .error e => .err e
  | .ok none => .err (-2)
  | .ok (some n) =>
      match bs[n]? with
      | none => .err (-2)
      | some _ =>
        match resolve_collision bs key n nm with
        | .err e => .err e
        | .crash => .crash
        | .val none => .err (-2)
        | .val (some j) =>
            match bs[j]? with
            | none => .err (-2)
            | some zbr =>
                match tnc_read_node zbr with
                | .error e => .err e
                | .ok d => .val d

/-- Translated from `ubifs_tnc_lookup_nm`, tnc.c lines 1789-1812: plain
lookup first; if it fails, return its error; if the entry's name matches
(`nm->len == le16_to_cpu(dent->nlen) && !memcmp(...)`), return it;
otherwise fall back to `do_lookup_nm`. -/
def ubifs_tnc_lookup_nm (bs : List LBranch) (found : Except Int (Option Nat))
    (key : Key) (nm : List Char) : COut Dent :=
  match ubifs_tnc_lookup_hashed bs found with
  | .error e => .err e
  | .ok d => if d.name = nm then .val d else do_lookup_nm bs found key nm

theorem name_cmp_matched_iff : ∀ a b : List Char,
    name_cmp a b = .matched ↔ a = b := by
  intro a
  induction a with
  | nil =>
    intro b
    cases b <;> simp [name_cmp]
  | cons x as ih =>
    intro b
    cases b with
    | nil => simp [name_cmp]
    | cons y bs =>
      unfold name_cmp
      by_cases hxy : x = y
      · rw [if_pos hxy, ih bs]
        subst hxy
        simp
      · rw [if_neg hxy]
        constructor
        · intro h
          split at h <;> cases h
        · intro h
          cases h
          exact absurd rfl hxy

/-- Counterexample for C10: a single branch under an xattr-entry key
whose node reads back with the right name but fails entry validation.
The plain-lookup fast path of `ubifs_tnc_lookup_nm` never validates
xattr entries (the LNC caches only dir-entries), so it returns the node,
while `do_lookup_nm` validates it inside `matches_name` and fails with
-EINVAL: the two are not equivalent. -/
theorem ubifs_tnc_lookup_nm_not_equiv :
    ubifs_tnc_lookup_nm [LBranch.mk ⟨5, .xent, 7⟩ (.ok ⟨['a'], false⟩)]
        (.ok (some 0)) ⟨5, .xent, 7⟩ ['a'] = .val ⟨['a'], false⟩ ∧
    do_lookup_nm [LBranch.mk ⟨5, .xent, 7⟩ (.ok ⟨['a'], false⟩)]
        (.ok (some 0)) ⟨5, .xent, 7⟩ ['a'] = .err (-22) ∧
    ubifs_tnc_lookup_nm [LBranch.mk ⟨5, .xent, 7⟩ (.ok ⟨['a'], false⟩)]
        (.ok (some 0)) ⟨5, .xent, 7⟩ ['a'] ≠
      do_lookup_nm [LBranch.mk ⟨5, .xent, 7⟩ (.ok ⟨['a'], false⟩)]
        (.ok (some 0)) ⟨5, .xent, 7⟩ ['a'] := by
  refine ⟨by decide, by decide, by decide⟩

/-- C10 (amended): for directory-entry lookups — every branch of the
flattened collision neighbourhood carries a dent key — and provided
every entry node readable from a branch passes entry validation (the
invariant an uncorrupted file system maintains), `ubifs_tnc_lookup_nm`
(plain lookup, name check, fallback) returns exactly what `do_lookup_nm`
returns: same node on success, same error code on failure, -ENOENT when
absent; both start from the same deterministic `lookup_level0` outcome.
The restriction to dent keys is necessary: for any other hashed key
(xattr entries) whose node reads back and validates fine, `matches_name`
dereferences the never-filled leaf-node-cache pointer (tnc.c line 817)
and crashes, so the fallback walk has no defined result to agree with
(second conjunct). -/
theorem ubifs_tnc_lookup_nm_equiv (bs : List LBranch)
    (found : Except Int (Option Nat)) (key : Key) (nm : List Char)
    (hdent : ∀ b ∈ bs, b.key.ktype = .dent)
    (hvalid : ∀ b ∈ bs, ∀ d, b.read = .ok d → d.valid = true)
    (hwf : ∀ n, found = .ok (some n) → n < bs.length) :
    ubifs_tnc_lookup_nm bs found key nm = do_lookup_nm bs found key nm ∧
    ∀ zbr : LBranch, ¬ zbr.key.ktype = .dent →
      ∀ d, zbr.read = .ok d → d.valid = true →
        matches_name zbr nm = .crash := by
  constructor
  · cases found with
    | error e => rfl
    | ok onat =>
      cases onat with
      | none => rfl
      | some n =>
        have hn := hwf n rfl
        have hb : bs[n]? = some bs[n] := List.getElem?_eq_getElem hn
        have hlhs : ubifs_tnc_lookup_hashed bs (.ok (some n)) =
            tnc_read_node bs[n] := by
          unfold ubifs_tnc_lookup_hashed
          simp only [hb]
        cases hr : bs[n].read with
        | error e =>
          have ht : tnc_read_node bs[n] = .error e := by
            unfold tnc_read_node
            rw [hr]
          have hm : matches_name bs[n] nm = .err e := by
            unfold matches_name
            rw [ht]
          have hrc : resolve_collision bs key n nm = .err e := by
            unfold resolve_collision
            simp only [hb]
            rw [hm]
          have hdl : do_lookup_nm bs (.ok (some n)) key nm = .err e := by
            unfold do_lookup_nm
            simp only [hb]
            rw [hrc]
          unfold ubifs_tnc_lookup_nm
          rw [hlhs, ht, hdl]
        | ok d =>
          have hv : d.valid = true := hvalid bs[n] (List.getElem_mem hn) d hr
          have hkt : bs[n].key.ktype = KType.dent :=
            hdent bs[n] (List.getElem_mem hn)
          have ht : tnc_read_node bs[n] = .ok d := by
            unfold tnc_read_node
            rw [hr]
            dsimp only
            rw [if_neg (by simp [hv])]
          have hm : matches_name bs[n] nm = .val (name_cmp d.name nm) := by
            unfold matches_name
            rw [ht]
            simp [hv, hkt]
          by_cases hname : d.name = nm
          · have hcmp : name_cmp d.name nm = .matched :=
              (name_cmp_matched_iff _ _).mpr hname
            have hrc : resolve_collision bs key n nm = .val (some n) := by
              unfold resolve_collision
              simp only [hb]
              rw [hm, hcmp]
            have hdl : do_lookup_nm bs (.ok (some n)) key nm = .val d := by
              unfold do_lookup_nm
              simp only [hb]
              rw [hrc]
              simp only [hb]
              rw [ht]
            unfold ubifs_tnc_lookup_nm
            rw [hlhs, ht, hdl]
            simp [hname]
          · unfold ubifs_tnc_lookup_nm
            rw [hlhs, ht]
            simp [hname]
  · intro zbr hnk d hd hdv
    unfold matches_name tnc_read_node
    rw [hd]
    dsimp only
    rw [if_neg (by simp [hnk])]
    simp [hdv, hnk]

/-- Witness for C10 (amended): with a valid dent on media, the fast path
and the collision walk agree on a concrete lookup. -/
theorem ubifs_tnc_lookup_nm_equiv_witness :
    ubifs_tnc_lookup_nm [LBranch.mk ⟨5, .dent, 7⟩ (.ok ⟨['a'], true⟩)]
        (.ok (some 0)) ⟨5, .dent, 7⟩ ['a'] =
      do_lookup_nm [LBranch.mk ⟨5, .dent, 7⟩ (.ok ⟨['a'], true⟩)]
        (.ok (some 0)) ⟨5, .dent, 7⟩ ['a'] :=
  (ubifs_tnc_lookup_nm_equiv [LBranch.mk ⟨5, .dent, 7⟩ (.ok ⟨['a'], true⟩)]
    (.ok (some 0)) ⟨5, .dent, 7⟩ ['a']
    (by
      intro b hbm
      simp at hbm
      subst hbm
      rfl)
    (by
      intro b hbm d hd
      simp at hbm
      subst hbm
      simp at hd
      rw [← hd])
    (by
      intro n h
      simp at h ⊢
      omega)).1

mutual
/-- In-memory TNC tree for the search path of `lookup_level0`: a level-0
znode holds its branch keys (only keys matter to the descent); an
internal znode holds its branches as separator key / child pairs.  All
znodes are loaded (`load_znode` never fails in the model). -/
inductive Ztree where
  | leaf (ks : List Key)
  | node (cs : Zkids)
deriving DecidableEq

/-- Branch list of an internal znode. -/
inductive Zkids where
  | nil
  | cons (k : Key) (t : Ztree) (rest : Zkids)
deriving DecidableEq
end

/-- Separator keys of an internal znode's branches. -/
def Zkids.keys : Zkids → List Key
  | .nil => []
  | .cons k _ rest => k :: rest.keys

/-- Number of branches. -/
def Zkids.length : Zkids → Nat
  | .nil => 0
  | .cons _ _ rest => rest.length + 1

/-- Child at slot n. -/
def Zkids.get? : Zkids → Nat → Option (Key × Ztree)
  | .nil, _ => none
  | .cons k t _, 0 => some (k, t)
  | .cons _ _ rest, n + 1 => rest.get? n

mutual
/-- Level-0 znodes of a subtree, in tree order (the in-order walk that
`tnc_prev`/`tnc_next` implement steps through this sequence). -/
def Ztree.leafSeq : Ztree → List (List Key)
  | .leaf ks => [ks]
  | .node cs => cs.leafSeqK

def Zkids.leafSeqK : Zkids → List (List Key)
  | .nil => []
  | .cons _ t rest => t.leafSeq ++ rest.leafSeqK
end

mutual
/-- Keys of the rightmost level-0 znode of a subtree: what `tnc_prev`
descends to after stepping to a left sibling (tnc.c lines 929-940). -/
def Ztree.rightmost : Ztree → List Key
  | .leaf ks => ks
  | .node cs => cs.rightK

def Zkids.rightK : Zkids → List Key
  | .nil => []
  | .cons _ t .nil => t.rightmost
  | .cons _ _ (.cons k2 t2 rest) => (Zkids.cons k2 t2 rest).rightK
end

mutual
/-- Well-formedness used by the search lemmas: every znode has at least
one branch (`child_cnt > 0`, spec §3). -/
def Ztree.wfB : Ztree → Bool
  | .leaf ks => ¬ ks.isEmpty
  | .node cs => ¬ (cs = .nil) && cs.wfK

def Zkids.wfK : Zkids → Bool
  | .nil => true
  | .cons _ t rest => t.wfB && rest.wfK
end

/-- Modelled from the spec §4.4: `bsearch_in_znode` / `ubifs_search_zbranch`
(tnc_misc.c, not in this tree): returns the slot of the greatest key not
above the target (-1 when the target is below the leftmost key) and
whether it is an exact match. -/
def ubifs_search_zbranch (ks : List Key) (k : Key) : Int × Bool :=
  let cnt := (ks.takeWhile (fun x => decide (keys_cmp x k ≤ 0))).length
  if cnt = 0 then (-1, false)
  else
    ((cnt : Int) - 1,
      match ks[cnt - 1]? with
      | some x => decide (keys_cmp x k = 0)
      | none => false)

/-- The predecessor context carried down the descent: the subtree sibling
immediately left of the branch being entered, if any, else the context
inherited from above. -/
def predCtx (prev : Option Ztree) (acc : Option (List Key)) :
    Option (List Key) :=
  match prev with
  | some p => some p.rightmost
  | none => acc

mutual
/-- Translated from the descent loop of `lookup_level0`, tnc.c lines
1405-1434: search the znode; at level 0 stop with the slot and exactness;
otherwise clamp the slot to 0 and descend into that child.  `acc` tracks
the keys of the in-order predecessor level-0 znode of the reached znode
(what `tnc_prev` would step to), starting from `none` at the root. -/
def descend (t : Ztree) (k : Key) (acc : Option (List Key)) :
    List Key × Int × Bool × Option (List Key) :=
  match t with
  | .leaf ks =>
      let r := ubifs_search_zbranch ks k
      (ks, r.1, r.2, acc)
  | .node cs =>
      let r := ubifs_search_zbranch cs.keys k
      descendK cs (max r.1 0).toNat k acc none

/-- Walk to the slot being entered, remembering the subtree immediately
to its left. -/
def descendK (cs : Zkids) (n : Nat) (k : Key) (acc : Option (List Key))
    (prev : Option Ztree) : List Key × Int × Bool × Option (List Key) :=
  match cs, n with
  | .nil, _ => ([], -1, false, acc)
  | .cons _ t _, 0 => descend t k (predCtx prev acc)
  | .cons _ t rest, n + 1 => descendK rest n k acc (some t)
end

/-- Result of `lookup_level0`: the C return value (1 exact, 0 not
found), the branch keys of the znode `*zn` points at, and the slot `*n`. -/
structure L0Result where
  found : Int
  keys : List Key
  slot : Int
deriving DecidableEq

/-- Translated from `lookup_level0`, tnc.c lines 1387-1502: descend; if
the search was exact, or the key is not hashed, or the slot is not -1,
return the descent result directly; otherwise step to the in-order
predecessor branch (`tnc_prev`; -ENOENT gives not-found with slot -1) and
return an exact match positioned there when its key equals the searched
key, else not-found with slot -1. -/
def lookup_level0 (t : Ztree) (k : Key) : L0Result :=
  let d := descend t k none
  if d.2.2.1 = true ∨ ¬ is_hash_key k = true ∨ ¬ d.2.1 = -1 then
    ⟨if d.2.2.1 then 1 else 0, d.1, d.2.1⟩
  else
    match d.2.2.2 with
    | none => ⟨0, d.1, -1⟩
    | some pks =>
        match pks[pks.length - 1]? with
        | none => ⟨0, d.1, -1⟩
        | some pk =>
            if ¬ keys_cmp k pk = 0 then ⟨0, d.1, -1⟩
            else ⟨1, pks, (pks.length : Int) - 1⟩

theorem search_zbranch_slot_bounds (ks : List Key) (k : Key) :
    -1 ≤ (ubifs_search_zbranch ks k).1 ∧
      (ubifs_search_zbranch ks k).1 < (ks.length : Int) := by
  have hle : (ks.takeWhile (fun x => decide (keys_cmp x k ≤ 0))).length ≤
      ks.length := (List.takeWhile_sublist _).length_le
  simp only [ubifs_search_zbranch]
  split <;> dsimp only <;> omega

theorem zkids_keys_length : ∀ cs : Zkids, cs.keys.length = cs.length
  | .nil => rfl
  | .cons k t rest => by
      simp [Zkids.keys, Zkids.length, zkids_keys_length rest]

mutual
theorem leafSeq_ne_nil : ∀ t : Ztree, t.wfB = true → t.leafSeq ≠ []
  | .leaf ks, _ => by simp [Ztree.leafSeq]
  | .node cs, h => by
      simp only [Ztree.wfB, Bool.and_eq_true, decide_eq_true_eq] at h
      obtain ⟨hne, hwk⟩ := h
      exact leafSeqK_ne_nil cs hwk hne

theorem leafSeqK_ne_nil : ∀ cs : Zkids, cs.wfK = true → ¬ cs = .nil →
    cs.leafSeqK ≠ []
  | .nil, _, hne => absurd rfl hne
  | .cons k t rest, h, _ => by
      simp only [Zkids.wfK, Bool.and_eq_true] at h
      have ht := leafSeq_ne_nil t h.1
      simp only [Zkids.leafSeqK]
      intro hx
      rcases List.append_eq_nil.mp hx with ⟨h1, _⟩
      exact ht h1
end

mutual
theorem rightmost_last : ∀ t : Ztree, t.wfB = true →
    t.leafSeq.getLast? = some t.rightmost
  | .leaf ks, _ => by simp [Ztree.leafSeq, Ztree.rightmost]
  | .node cs, h => by
      simp only [Ztree.wfB, Bool.and_eq_true, decide_eq_true_eq] at h
      obtain ⟨hne, hwk⟩ := h
      simpa [Ztree.leafSeq, Ztree.rightmost] using rightK_last cs hwk hne

theorem rightK_last : ∀ cs : Zkids, cs.wfK = true → ¬ cs = .nil →
    cs.leafSeqK.getLast? = some cs.rightK
  | .nil, _, hne => absurd rfl hne
  | .cons k t .nil, h, _ => by
      simp only [Zkids.wfK, Bool.and_eq_true] at h
      have ht := rightmost_last t h.1
      simp [Zkids.leafSeqK, Zkids.rightK, ht]
  | .cons k t (.cons k2 t2 rest), h, _ => by
      simp only [Zkids.wfK, Bool.and_eq_true] at h
      have h2 : (Zkids.cons k2 t2 rest).wfK = true := by
        simp [Zkids.wfK, h.2.1, h.2.2]
      have hr := rightK_last (.cons k2 t2 rest) h2 (by intro hx; cases hx)
      have hrne := leafSeqK_ne_nil (.cons k2 t2 rest) h2 (by intro hx; cases hx)
      show (t.leafSeq ++ (Zkids.cons k2 t2 rest).leafSeqK).getLast? =
        some (Zkids.cons k2 t2 rest).rightK
      rw [List.getLast?_append_of_ne_nil _ hrne]
      exact hr
end

mutual
theorem descend_pred : ∀ (t : Ztree) (k : Key) (acc : Option (List Key)),
    t.wfB = true →
    ∃ pre post, t.leafSeq = pre ++ (descend t k acc).1 :: post ∧
      (descend t k acc).2.2.2 =
        (match pre.getLast? with
         | some p => some p
         | none => acc)
  | .leaf ks, k, acc, _ => by
      refine ⟨[], [], by simp [Ztree.leafSeq, descend], ?_⟩
      simp [descend]
  | .node cs, k, acc, h => by
      simp only [Ztree.wfB, Bool.and_eq_true, decide_eq_true_eq] at h
      obtain ⟨hne, hwk⟩ := h
      have hlen1 : 1 ≤ cs.length := by
        cases cs with
        | nil => exact absurd rfl hne
        | cons k0 t0 rest => simp [Zkids.length]
      have hbounds := search_zbranch_slot_bounds cs.keys k
      have hn : (max (ubifs_search_zbranch cs.keys k).1 0).toNat < cs.length := by
        rw [zkids_keys_length] at hbounds
        omega
      have hk := descendK_pred cs (max (ubifs_search_zbranch cs.keys k).1 0).toNat
        k acc none hwk hn
      simpa [Ztree.leafSeq, descend, predCtx] using hk

theorem descendK_pred : ∀ (cs : Zkids) (n : Nat) (k : Key)
    (acc : Option (List Key)) (prev : Option Ztree),
    cs.wfK = true → n < cs.length →
    ∃ pre post, cs.leafSeqK = pre ++ (descendK cs n k acc prev).1 :: post ∧
      (descendK cs n k acc prev).2.2.2 =
        (match pre.getLast? with
         | some p => some p
         | none => predCtx prev acc)
  | .nil, n, _, _, _, _, hn => by simp [Zkids.length] at hn
  | .cons k0 t0 rest, 0, k, acc, prev, h, _ => by
      simp only [Zkids.wfK, Bool.and_eq_true] at h
      obtain ⟨pre0, post0, hseq, hpred⟩ := descend_pred t0 k (predCtx prev acc) h.1
      refine ⟨pre0, post0 ++ rest.leafSeqK, ?_, ?_⟩
      · simp only [Zkids.leafSeqK, descendK, hseq]
        simp [List.append_assoc]
      · simpa [descendK] using hpred
  | .cons k0 t0 rest, n + 1, k, acc, prev, h, hn => by
      simp only [Zkids.wfK, Bool.and_eq_true] at h
      have hn' : n < rest.length := by
        simp only [Zkids.length] at hn
        omega
      obtain ⟨pre1, post1, hseq, hpred⟩ :=
        descendK_pred rest n k acc (some t0) h.2 hn'
      refine ⟨t0.leafSeq ++ pre1, post1, ?_, ?_⟩
      · simp only [Zkids.leafSeqK, descendK, hseq]
        simp [List.append_assoc]
      · show (descendK rest n k acc (some t0)).2.2.2 = _
        rw [hpred]
        cases hp1 : pre1.getLast? with
        | some p =>
          have hpne : pre1 ≠ [] := by
            intro hx
            rw [hx] at hp1
            cases hp1
          rw [List.getLast?_append_of_ne_nil _ hpne, hp1]
        | none =>
          have hpe : pre1 = [] := by
            cases pre1 with
            | nil => rfl
            | cons a l =>
              rw [List.getLast?_eq_getElem?] at hp1
              simp at hp1
          subst hpe
          simp only [List.append_nil]
          rw [rightmost_last t0 h.1]
          rfl
end

mutual
theorem leafSeq_leaves_ne_nil : ∀ t : Ztree, t.wfB = true →
    ∀ l, l ∈ t.leafSeq → l ≠ []
  | .leaf ks, h, l, hl => by
      simp only [Ztree.wfB, decide_eq_true_eq, List.isEmpty_iff] at h
      simp only [Ztree.leafSeq, List.mem_singleton] at hl
      subst hl
      exact h
  | .node cs, h, l, hl => by
      simp only [Ztree.wfB, Bool.and_eq_true, decide_eq_true_eq] at h
      exact leafSeqK_leaves_ne_nil cs h.2 l hl

theorem leafSeqK_leaves_ne_nil : ∀ cs : Zkids, cs.wfK = true →
    ∀ l, l ∈ cs.leafSeqK → l ≠ []
  | .nil, _, l, hl => by simp [Zkids.leafSeqK] at hl
  | .cons k t rest, h, l, hl => by
      simp only [Zkids.wfK, Bool.and_eq_true] at h
      simp only [Zkids.leafSeqK, List.mem_append] at hl
      rcases hl with hl | hl
      · exact leafSeq_leaves_ne_nil t h.1 l hl
      · exact leafSeqK_leaves_ne_nil rest h.2 l hl
end

/-- C3: left-edge predecessor probe of `lookup_level0` (tnc.c lines
1387-1502).  When the descent is not an exact match, the key is hashed
and the reached slot is -1, the in-order predecessor level-0 znode of
the reached znode (the znode `tnc_prev` steps to) is probed: if its last
branch key equals the searched key, `lookup_level0` returns 1 positioned
at that branch, otherwise 0 with slot -1 (also when no predecessor
exists).  When the search was exact, or the key is not hashed, or the
slot is at least 0, the descent result is returned directly with no
predecessor probe. -/
theorem lookup_level0_left_edge (t : Ztree) (k : Key) (hwf : t.wfB = true) :
    (((descend t k none).2.2.1 = true ∨ ¬ is_hash_key k = true ∨
        ¬ (descend t k none).2.1 = -1) →
      lookup_level0 t k =
        ⟨if (descend t k none).2.2.1 then 1 else 0,
          (descend t k none).1, (descend t k none).2.1⟩) ∧
    ((descend t k none).2.2.1 = false → is_hash_key k = true →
      (descend t k none).2.1 = -1 →
      ∃ pre post,
        t.leafSeq = pre ++ (descend t k none).1 :: post ∧
        (pre = [] → lookup_level0 t k = ⟨0, (descend t k none).1, -1⟩) ∧
        (∀ pks, pre.getLast? = some pks →
          ∃ pk, pks.getLast? = some pk ∧
            (keys_cmp k pk = 0 →
              lookup_level0 t k = ⟨1, pks, (pks.length : Int) - 1⟩) ∧
            (¬ keys_cmp k pk = 0 →
              lookup_level0 t k = ⟨0, (descend t k none).1, -1⟩))) := by
  obtain ⟨pre, post, hseq, hpred⟩ := descend_pred t k none hwf
  constructor
  · intro hcond
    simp only [lookup_level0]
    rw [if_pos hcond]
  · intro hx hhash hslot
    have hcond : ¬((descend t k none).2.2.1 = true ∨ ¬ is_hash_key k = true ∨
        ¬ (descend t k none).2.1 = -1) := by
      push_neg
      exact ⟨by simp [hx], hhash, hslot⟩
    refine ⟨pre, post, hseq, ?_, ?_⟩
    · intro hpe
      have hnone : (descend t k none).2.2.2 = none := by
        rw [hpred, hpe]
        rfl
      simp only [lookup_level0]
      rw [if_neg hcond]
      simp only [hnone]
    · intro pks hpks
      have hsome : (descend t k none).2.2.2 = some pks := by
        rw [hpred, hpks]
      have hmem : pks ∈ t.leafSeq := by
        rw [hseq]
        exact List.mem_append_left _ (List.mem_of_mem_getLast? hpks)
      have hne : pks ≠ [] := leafSeq_leaves_ne_nil t hwf pks hmem
      obtain ⟨pk, hpk⟩ : ∃ pk, pks.getLast? = some pk := by
        cases hq : pks.getLast? with
        | some x => exact ⟨x, rfl⟩
        | none => exact absurd (List.getLast?_eq_none_iff.mp hq) hne
      have hget : pks[pks.length - 1]? = some pk := by
        rw [← List.getLast?_eq_getElem?]
        exact hpk
      refine ⟨pk, hpk, ?_, ?_⟩
      · intro hcmp
        simp only [lookup_level0]
        rw [if_neg hcond]
        simp only [hsome, hget]
        rw [if_neg (by simp [hcmp])]
      · intro hcmp
        simp only [lookup_level0]
        rw [if_neg hcond]
        simp only [hsome, hget]
        rw [if_pos hcmp]

/-- The TNC tree of the collision example in the comment of
`lookup_level0` (tnc.c lines 1442-1461): root | 3 | 5 | over leaves
| 3 | 5 | and | 6 | 7 |, all keys dent keys of inode 1. -/
def c3tree : Ztree :=
  .node (.cons ⟨1, .dent, 3⟩ (.leaf [⟨1, .dent, 3⟩, ⟨1, .dent, 5⟩])
    (.cons ⟨1, .dent, 5⟩ (.leaf [⟨1, .dent, 6⟩, ⟨1, .dent, 7⟩]) .nil))

/-- The searched hashed key "5" of the example. -/
def c3key : Key := ⟨1, .dent, 5⟩

theorem lookup_level0_left_edge_witness :
    c3tree.wfB = true ∧ lookup_level0 c3tree c3key = ⟨1,
      [⟨1, .dent, 3⟩, ⟨1, .dent, 5⟩], 1⟩ := by
  refine ⟨by decide, ?_⟩
  obtain ⟨pre, post, hseq, hnil, hsome⟩ :=
    (lookup_level0_left_edge c3tree c3key (by decide)).2
      (by decide) (by decide) (by decide)
  have hd1 : (descend c3tree c3key none).1 = [⟨1, .dent, 6⟩, ⟨1, .dent, 7⟩] :=
    by decide
  rw [hd1] at hseq
  have hls : c3tree.leafSeq = [[⟨1, .dent, 3⟩, ⟨1, .dent, 5⟩],
      [⟨1, .dent, 6⟩, ⟨1, .dent, 7⟩]] := by decide
  rw [hls] at hseq
  match pre, hseq with
  | [], hseq => exact absurd (List.head_eq_of_cons_eq hseq) (by decide)
  | [a], hseq =>
      have ha : a = [⟨1, .dent, 3⟩, ⟨1, .dent, 5⟩] :=
        (List.head_eq_of_cons_eq hseq).symm
      obtain ⟨pk, hpk, hyes, _⟩ :=
        hsome [⟨1, .dent, 3⟩, ⟨1, .dent, 5⟩] (by rw [ha]; decide)
      have hpk5 : pk = ⟨1, .dent, 5⟩ := by
        simp only [List.getLast?] at hpk
        exact (Option.some_injective _ hpk).symm
      subst hpk5
      simpa using hyes (by decide)
  | a :: b :: pre2, hseq =>
      have htl := List.tail_eq_of_cons_eq hseq
      have htl2 := List.tail_eq_of_cons_eq htl
      exact absurd htl2.symm (by simp)
